import Mathlib

/-!
Verification development for the `linguifyversal` repository.

The repository has two Python source files:
  * `src/transformer/app.py` — the `AcademicTextHumanizer` text pipeline
    (contraction expansion, academic transitions, passive rewriting,
    synonym substitution, whitespace/punctuation cleanup), and
  * `src/app.py` — a FastAPI wrapper exposing `/api/process`.

This file gives a shallow embedding of that code.  Text is modelled as
`List Char` (ASCII scope: Python's `\w`, `\s`, `str.lower` etc. agree with
the ASCII definitions used below on the inputs considered).  The external
NLP libraries (spaCy, NLTK, WordNet) are modelled as oracles in an `Env`
structure: the repository's own logic over their outputs is embedded
faithfully, the libraries themselves are environment parameters.  Python's
global `random` module is modelled as a stream of draws in `[0,1)` plus a
stream of choice indices, threaded through the computation exactly where
the source consumes randomness (respecting Python's short-circuit
evaluation order).
-/

abbrev Str := List Char

/-- The apostrophe character (written via its code point to keep the
development readable). -/
def apos : Char := Char.ofNat 39

/-- Python `\s` for the ASCII range: space, tab, newline, carriage return,
vertical tab, form feed. -/
def isWsChar (c : Char) : Bool :=
  c = ' ' || c = Char.ofNat 9 || c = Char.ofNat 10 || c = Char.ofNat 13 ||
  c = Char.ofNat 11 || c = Char.ofNat 12

/-- Python `\w` for the ASCII range: alphanumeric or underscore. -/
def isWordChar (c : Char) : Bool := c.isAlphanum || c = '_'

def isWordOpt : Option Char → Bool
  | none => false
  | some c => isWordChar c

/-- Python `str.strip()` (ASCII whitespace). -/
def stripWs (s : Str) : Str :=
  ((s.dropWhile isWsChar).reverse.dropWhile isWsChar).reverse

/-- Helper for `splitWs`: `acc` is the current word, reversed. -/
def splitWsAux : Str → Str → List Str
  | [], acc => if acc = [] then [] else [acc.reverse]
  | c :: rest, acc =>
    if isWsChar c then
      if acc = [] then splitWsAux rest [] else acc.reverse :: splitWsAux rest []
    else splitWsAux rest (c :: acc)

/-- Python `str.split()` with no argument: split on whitespace runs,
dropping empty pieces. -/
def splitWs (s : Str) : List Str := splitWsAux s []

/-- Case-insensitive "the pattern `k` is a prefix of `s`", comparing via
`Char.toLower` as Python's `re.IGNORECASE` does on ASCII. -/
def ciStartsWith : Str → Str → Bool
  | [], _ => true
  | _ :: _, [] => false
  | k :: ks, c :: cs => (k.toLower = c.toLower) && ciStartsWith ks cs

/-- A regex word boundary `\b` holds between two (optional) characters iff
exactly one of them is a word character; the ends of the string count as
non-word. -/
def wordBoundary (a b : Option Char) : Bool := isWordOpt a != isWordOpt b

/-- Whether the case-insensitive pattern `\b key \b` matches at the start
of `s`, where `prev` is the character immediately before `s` in the full
text (`none` at the start of the text). -/
def matchKeyAt (key : Str) (prev : Option Char) (s : Str) : Bool :=
  ciStartsWith key s &&
  wordBoundary prev s.head? &&
  wordBoundary ((s.take key.length).getLast?) (s.drop key.length).head?

/-- Scanner for `re.sub(r"\b" + re.escape(key) + r"\b", repl, s,
flags=re.IGNORECASE)`.  `skip` counts characters of a match that remain to
be consumed (their replacement has already been emitted); `prev` is the
previous character of the original string, used for `\b`.  Matching is
performed on the original string (as `re.sub` does), left to right,
non-overlapping. -/
def subKeyAux (key repl : Str) : Nat → Option Char → Str → Str
  | _, _, [] => []
  | skip+1, _, c :: rest => subKeyAux key repl skip (some c) rest
  | 0, prev, c :: rest =>
    if matchKeyAt key prev (c :: rest) then
      repl ++ subKeyAux key repl (key.length - 1) (some c) rest
    else
      c :: subKeyAux key repl 0 (some c) rest

def subKey (key repl : Str) (s : Str) : Str := subKeyAux key repl 0 none s

/-- The humanizer's `contractions_map`, in Python dict insertion order
(source lines 98–103). -/
def contractions_map : List (Str × Str) :=
  [ (['c','a','n',apos,'t'], "cannot".data)
  , (['w','o','n',apos,'t'], "will not".data)
  , (['n',apos,'t'], " not".data)
  , ([apos,'r','e'], " are".data)
  , ([apos,'s'], " is".data)
  , ([apos,'l','l'], " will".data)
  , ([apos,'v','e'], " have".data)
  , ([apos,'d'], " would".data)
  , ([apos,'m'], " am".data)
  , (['i','t',apos,'s'], "it is".data)
  , (['t','h','a','t',apos,'s'], "that is".data)
  , (['d','o','n',apos,'t'], "do not".data)
  , (['d','o','e','s','n',apos,'t'], "does not".data)
  , (['i','s','n',apos,'t'], "is not".data) ]

/-- Stable insertion step for sorting by key length, descending: `p` goes
after every entry with strictly greater length and before ties, which is
exactly what Python's stable `sorted(..., key=len, reverse=True)` does. -/
def insertLenDesc (p : Str × Str) : List (Str × Str) → List (Str × Str)
  | [] => [p]
  | q :: qs => if p.1.length < q.1.length then q :: insertLenDesc p qs else p :: q :: qs

def sortLenDesc : List (Str × Str) → List (Str × Str)
  | [] => []
  | p :: ps => insertLenDesc p (sortLenDesc ps)

/-- `sorted(self.contractions_map.keys(), key=len, reverse=True)` paired
with the mapped values (source line 203); spelled out explicitly and
proved equal to the stable sort below. -/
def sortedContractions : List (Str × Str) :=
  [ (['d','o','e','s','n',apos,'t'], "does not".data)
  , (['t','h','a','t',apos,'s'], "that is".data)
  , (['c','a','n',apos,'t'], "cannot".data)
  , (['w','o','n',apos,'t'], "will not".data)
  , (['d','o','n',apos,'t'], "do not".data)
  , (['i','s','n',apos,'t'], "is not".data)
  , (['i','t',apos,'s'], "it is".data)
  , (['n',apos,'t'], " not".data)
  , ([apos,'r','e'], " are".data)
  , ([apos,'l','l'], " will".data)
  , ([apos,'v','e'], " have".data)
  , ([apos,'s'], " is".data)
  , ([apos,'d'], " would".data)
  , ([apos,'m'], " am".data) ]

theorem sortedContractions_eq : sortedContractions = sortLenDesc contractions_map := by
  decide

/-- `AcademicTextHumanizer._expand_contractions` (source lines 199–207):
for each key in length-descending order, substitute
`\b key \b` (case-insensitive) by its expansion, each pass operating on
the result of the previous one. -/
def expand_contractions (s : Str) : Str :=
  sortedContractions.foldl (fun acc kv => subKey kv.1 kv.2 acc) s

/-- Lowercasing a string, as Python `str.lower()` on ASCII. -/
def lowerStr (s : Str) : Str := s.map Char.toLower

/-- Python `" ".join(l)`. -/
def joinSpace (l : List Str) : Str := List.intercalate [' '] l

/-- Python `name.replace("_", " ")` (applied to WordNet lemma names). -/
def underscoreToSpace (s : Str) : Str := s.map (fun c => if c = '_' then ' ' else c)

/-- Python `str.isalpha()`: non-empty and all alphabetic. -/
def isAlphaStr (s : Str) : Bool := !s.isEmpty && s.all Char.isAlpha

/-- The global `random` module state: a stream of `random.random()` draws
in `[0,1)`, a stream of `random.choice` indices, and the current position.
Both streams are consumed in lock step with the source's calls. -/
structure RNG where
  vals : Nat → ℚ
  picks : Nat → Nat
  k : Nat

/-- `random.random()`. -/
def RNG.next (r : RNG) : ℚ × RNG := (r.vals r.k, ⟨r.vals, r.picks, r.k + 1⟩)

/-- `random.choice` on a sequence of length `n`: consumes one position of
the stream and yields an index `< n`. -/
def RNG.choiceIdx (r : RNG) (n : Nat) : Nat × RNG :=
  (r.picks r.k % n, ⟨r.vals, r.picks, r.k + 1⟩)

/-- `random.random()` always lies in `[0, 1)`. -/
def RNG.Valid (r : RNG) : Prop := ∀ n, 0 ≤ r.vals n ∧ r.vals n < 1

/-- WordNet part-of-speech constants. -/
inductive WNPos
  | noun
  | verb
  | adj
  | adv
deriving DecidableEq

/-- A spaCy token as consumed by `_replace_with_synonyms_context`:
only the attributes the source reads. -/
structure SpacyToken where
  text : Str
  whitespace : Str
  isPunct : Bool
  isSpace : Bool
  pos : Str
  lemma_ : Str

/-- A child of a dependency-parse token, as consumed by
`_reconstruct_span` (dependency label, surface text, subtree size). -/
structure DepChild where
  dep : Str
  text : Str
  subtreeSize : Nat

/-- A spaCy dependency-parse token as consumed by
`_safe_passive_transform`. -/
structure DepToken where
  dep : Str
  tag : Str
  lemma_ : Str
  text : Str
  lefts : List DepChild
  rights : List DepChild

/-- The loaded spaCy model, as an oracle: sentence segmentation,
dependency parse, and token parse; each may raise. -/
structure SpacyModel where
  sents : Str → Except Unit (List Str)
  depParse : Str → Except Unit (List DepToken)
  tokParse : Str → Except Unit (List SpacyToken)

/-- The external-library environment: the module-level `SPACY_NLP`
(possibly unavailable), NLTK's `sent_tokenize` and `pos_tag`, WordNet
lemma-name streams (flattened in iteration order), and the PRNG streams
derived from `random.seed`. -/
structure Env where
  spacy : Option SpacyModel
  sentTokenize : Str → Except Unit (List Str)
  posTag : List Str → Except Unit (List Str)
  wnVerbLemmas : Str → Except Unit (List Str)
  wnSynLemmas : Str → WNPos → Except Unit (List Str)
  seedVals : Int → Nat → ℚ
  seedPicks : Int → Nat → Nat

/-- The probability fields set by `AcademicTextHumanizer.__init__`. -/
structure HumCfg where
  p_passive : ℚ
  p_synonym : ℚ
  p_transition : ℚ

/-- `self.academic_transitions` (source lines 91–95). -/
def academic_transitions : List Str :=
  [ "Moreover".data, "Additionally".data, "Furthermore".data, "However".data
  , "Therefore".data, "Consequently".data, "Notably".data, "Importantly".data
  , "Specifically".data, "In contrast".data, "Conversely".data, "Hence".data ]

/-- `self.academic_word_map` (source lines 106–119). -/
def academic_word_map : List (Str × List Str) :=
  [ ("use".data, ["utilize".data, "employ".data, "apply".data, "leverage".data])
  , ("make".data, ["produce".data, "create".data, "construct".data])
  , ("get".data, ["obtain".data, "acquire".data, "attain".data])
  , ("show".data, ["demonstrate".data, "illustrate".data, "reveal".data])
  , ("help".data, ["assist".data, "facilitate".data, "support".data])
  , ("start".data, ["initiate".data, "commence".data, "undertake".data])
  , ("change".data, ["modify".data, "alter".data, "transform".data])
  , ("good".data, ["effective".data, "beneficial".data, "advantageous".data])
  , ("important".data, ["crucial".data, "essential".data, "paramount".data])
  , ("problem".data, ["issue".data, "challenge".data, "obstacle".data])
  , ("way".data, ["method".data, "approach".data, "technique".data])
  , ("result".data, ["outcome".data, "finding".data, "consequence".data]) ]

/-- Python dict lookup in `self.academic_word_map`. -/
def awmLookup (key : Str) : Option (List Str) :=
  (academic_word_map.find? (fun kv => kv.1 == key)).map (fun kv => kv.2)

/-- Module-level `_nltk_to_wordnet_pos` (source lines 55–64):
`tag.startswith(...)` dispatch. -/
def nltk_to_wordnet_pos (tag : Str) : Option WNPos :=
  if tag.head? = some 'J' then some WNPos.adj
  else if tag.head? = some 'V' then some WNPos.verb
  else if tag.head? = some 'N' then some WNPos.noun
  else if tag.head? = some 'R' then some WNPos.adv
  else none

/-- Whether `prev` (the preceding original character) is a sentence-final
punctuation mark, for the lookbehind `(?<=[.!?])`. -/
def isSentEnd : Option Char → Bool
  | some c => c = '.' || c = '!' || c = '?'
  | none => false

/-- Scanner for `re.split(r'(?<=[.!?])\s+', text)`.  The flag records
whether we are inside a delimiter whitespace run; `acc` is the current
chunk, reversed. -/
def regexSentSplitAux : Bool → Str → Option Char → Str → List Str
  | _, acc, _, [] => [acc.reverse]
  | false, acc, prev, c :: rest =>
    if isWsChar c && isSentEnd prev then
      acc.reverse :: regexSentSplitAux true [] (some c) rest
    else
      regexSentSplitAux false (c :: acc) (some c) rest
  | true, acc, _, c :: rest =>
    if isWsChar c then regexSentSplitAux true acc (some c) rest
    else regexSentSplitAux false [c] (some c) rest

def regexSentSplit (s : Str) : List Str := regexSentSplitAux false [] none s

/-- `AcademicTextHumanizer._split_sentences` (source lines 178–197):
spaCy segmentation if available, else NLTK `sent_tokenize`, else the
regex split; each tier filtered to non-empty stripped sentences, and a
tier's empty result falls through to the next. -/
def split_sentences (nlp : Option SpacyModel) (env : Env) (text : Str) : List Str :=
  let regexTier := ((regexSentSplit text).map stripWs).filter (fun s => !s.isEmpty)
  let nltkTier :=
    match env.sentTokenize text with
    | .ok ss =>
      let ss2 := (ss.map stripWs).filter (fun s => !s.isEmpty)
      if ss2.isEmpty then regexTier else ss2
    | .error _ => regexTier
  match nlp with
  | some m =>
    match m.sents text with
    | .ok ss =>
      let ss2 := (ss.map stripWs).filter (fun s => !s.isEmpty)
      if ss2.isEmpty then nltkTier else ss2
    | .error _ => nltkTier
  | none => nltkTier

/-- `AcademicTextHumanizer._starts_with_transition` (source lines
209–212): first whitespace word, trailing commas stripped, compared
lowercased against the transition vocabulary.  (On an empty sentence the
source would raise `IndexError`; all call sites pass non-empty stripped
sentences, so the `headD` default is never used.) -/
def starts_with_transition (s : Str) : Bool :=
  let head := (((splitWs s).headD []).reverse.dropWhile (fun c => c = ',')).reverse
  academic_transitions.any (fun t => lowerStr head == lowerStr t)

/-- The capitalization fix of `_add_transition` (source lines 218–219):
`if sentence and sentence[0].islower(): sentence = sentence[0].upper() +
sentence[1:]`. -/
def capitalize_if_lower (s : Str) : Str :=
  match s with
  | [] => []
  | c :: rest => if c.isLower then c.toUpper :: rest else c :: rest

/-- `AcademicTextHumanizer._add_transition` (source lines 214–220):
choose a random transition, uppercase a lowercase sentence start, and
prefix `"<Transition>, "`. -/
def add_transition (s : Str) (rng : RNG) : Str × RNG :=
  let (i, r) := rng.choiceIdx academic_transitions.length
  let t := academic_transitions.getD i []
  (t ++ [',', ' '] ++ capitalize_if_lower s, r)

/-- The transition decision of `humanize_text` (source lines 154–157):
the draw is consumed first; the sentence is prefixed only when the draw
is below `p_transition`, the sentence index is divisible by 3, and the
sentence does not already start with a transition. -/
def transition_step (p_transition : ℚ) (idx : Nat) (s : Str) (rng : RNG) : Str × RNG :=
  let (d, r1) := rng.next
  if d < p_transition ∧ idx % 3 = 0 ∧ starts_with_transition s = false then
    add_transition s r1
  else (s, r1)

/-- `AcademicTextHumanizer._past_participle_from_verb` (source lines
269–296): WordNet scan for a longer `-ed` form, then regular suffix
heuristics. -/
def past_participle_from_verb (env : Env) (lem : Str) : Str :=
  if lem = [] then lem ++ "ed".data
  else
    let fromWn : Option Str :=
      match env.wnVerbLemmas lem with
      | .error _ => none
      | .ok raws =>
        (raws.map underscoreToSpace).find?
          (fun n => lem.length < n.length && ("ed".data).isSuffixOf n)
    match fromWn with
    | some n => n
    | none =>
      if (['e']).isSuffixOf lem then lem ++ ['d']
      else if (['y']).isSuffixOf lem && 2 < lem.length &&
          !(("aeiou".data).contains (lem.getD (lem.length - 2) ' ')) then
        lem.dropLast ++ "ied".data
      else lem ++ "ed".data

/-- `AcademicTextHumanizer._reconstruct_span` (source lines 298–311). -/
def reconstruct_span (tok : DepToken) : Str :=
  let leftDeps := ["compound".data, "amod".data, "det".data, "nummod".data, "poss".data]
  let rightDeps := ["amod".data, "prep".data, "acl".data]
  let lefts := tok.lefts.filter (fun t => leftDeps.contains t.dep)
  let rights := (tok.rights.filter (fun t => rightDeps.contains t.dep)).filter
    (fun r => r.subtreeSize ≤ 3)
  joinSpace (lefts.map (fun t => t.text) ++ [tok.text] ++ rights.map (fun t => t.text))

def evidenceClause : Str := " This observation is supported by the evidence.".data

def empiricalClause : Str := " This can be observed empirically.".data

/-- `AcademicTextHumanizer._safe_passive_transform` (source lines
222–267).  A dependency-parse failure is caught; the conservative
fallback then appends `empiricalClause` with probability 0.35. -/
def safe_passive_transform (nlp : Option SpacyModel) (env : Env) (s : Str) (rng : RNG) :
    Str × RNG :=
  if s = [] ∨ (splitWs s).length < 4 then (s, rng)
  else
    match nlp with
    | none =>
      let (d, r) := rng.next
      if d < mkRat 1 2 then (s ++ evidenceClause, r) else (s, r)
    | some m =>
      let attempt : Option Str :=
        match m.depParse s with
        | .error _ => none
        | .ok toks =>
          let root := (toks.filter (fun t => t.dep == "ROOT".data)).getLast?
          let subj := toks.find? (fun t => t.dep == "nsubj".data || t.dep == "nsubjpass".data)
          let dobj := toks.find? (fun t => t.dep == "dobj".data || t.dep == "obj".data)
          match root, subj, dobj with
          | some rt, some sb, some ob =>
            if rt.tag.head? = some 'V' then
              let pp := past_participle_from_verb env rt.lemma_
              let objText := reconstruct_span ob
              let objCap :=
                match objText with
                | [] => []
                | c :: rest => c.toUpper :: rest
              some (objCap ++ " is ".data ++ pp ++ " by ".data ++ reconstruct_span sb ++ ['.'])
            else none
          | _, _, _ => none
      match attempt with
      | some out => (out, rng)
      | none =>
        let (d, r) := rng.next
        if d < mkRat 7 20 then (s ++ empiricalClause, r) else (s, r)

/-- Accumulate WordNet lemma names as `_get_simple_synonyms` does (source
lines 416–433): underscore-to-space, drop names case-equal to the lemma,
non-alphabetic or too short, deduplicate, stop at four.  (CPython iterates
a `set` here whose order is hash-dependent; the model keeps first-seen
order, which no claim depends on.) -/
def collectSynNames (lem : Str) : List Str → List Str → List Str
  | [], acc => acc.reverse
  | raw :: rest, acc =>
    if 4 ≤ acc.length then acc.reverse
    else
      let name := underscoreToSpace raw
      if lowerStr name != lowerStr lem && isAlphaStr name && 3 < name.length &&
          !(acc.contains name) then
        collectSynNames lem rest (name :: acc)
      else collectSynNames lem rest acc

/-- `AcademicTextHumanizer._get_simple_synonyms` (source lines 416–433):
`None` on an empty result or a raised WordNet query. -/
def get_simple_synonyms (env : Env) (lem : Str) (pos : WNPos) : Option (List Str) :=
  match env.wnSynLemmas lem pos with
  | .error _ => none
  | .ok raws =>
    let syns := collectSynNames lem raws []
    if syns.isEmpty then none else some syns

/-- Python `str.istitle()` for ASCII: scan tracking whether the previous
character was cased; uppercase only allowed after uncased, lowercase only
after cased. -/
def isTitleAux : Bool → Str → Bool
  | _, [] => true
  | prevCased, c :: rest =>
    if c.isUpper then !prevCased && isTitleAux true rest
    else if c.isLower then prevCased && isTitleAux true rest
    else isTitleAux false rest

def isTitleStr (s : Str) : Bool :=
  s.any (fun c => c.isUpper || c.isLower) && isTitleAux false s

/-- Python `str.isupper()` for ASCII: at least one cased character and no
lowercase. -/
def isUpperStr (s : Str) : Bool :=
  s.any (fun c => c.isUpper || c.isLower) && s.all (fun c => !c.isLower)

/-- Python `str.capitalize()` for ASCII. -/
def capitalizeStr (s : Str) : Str :=
  match s with
  | [] => []
  | c :: rest => c.toUpper :: rest.map Char.toLower

/-- `AcademicTextHumanizer._match_case` (source lines 409–414). -/
def match_case (candidate original : Str) : Str :=
  if isTitleStr original then capitalizeStr candidate
  else if isUpperStr original then candidate.map Char.toUpper
  else candidate

/-- Thread a random-consuming function over a list, left to right. -/
def mapRngList (f : α → RNG → β × RNG) : List α → RNG → List β × RNG
  | [], rng => ([], rng)
  | x :: xs, rng =>
    let (y, r1) := f x rng
    let (ys, r2) := mapRngList f xs r1
    (y :: ys, r2)

/-- `token.pos_` to WordNet POS dispatch inside the spaCy branch of
`_replace_with_synonyms_context` (source lines 343–351). -/
def wnPosOfSpacy (pos : Str) : Option WNPos :=
  if pos == "NOUN".data then some WNPos.noun
  else if pos == "VERB".data then some WNPos.verb
  else if pos == "ADJ".data then some WNPos.adj
  else if pos == "ADV".data then some WNPos.adv
  else none

/-- WordNet fallback for one spaCy token (source lines 342–359): a draw is
consumed only when the synonym list is non-empty. -/
def synSpacyWn (env : Env) (tok : SpacyToken) (rng : RNG) : Str × RNG :=
  match wnPosOfSpacy tok.pos with
  | none => (tok.text, rng)
  | some wnp =>
    match get_simple_synonyms env tok.lemma_ wnp with
    | none => (tok.text, rng)
    | some syns =>
      let (d, r1) := rng.next
      if d < mkRat 1 2 then
        let (i, r2) := r1.choiceIdx syns.length
        (match_case (syns.getD i []) tok.text, r2)
      else (tok.text, r1)

/-- Per-token processing of the spaCy branch of
`_replace_with_synonyms_context` (source lines 325–362): punctuation and
space tokens are kept; for content POS, the curated map is tried first
(the 0.7 draw is consumed only when the lemma is a key, by short-circuit),
then the WordNet fallback. -/
def synSpacyToken (env : Env) (tok : SpacyToken) (rng : RNG) : Str × RNG :=
  if tok.isPunct || tok.isSpace then (tok.text, rng)
  else if ["NOUN".data, "VERB".data, "ADJ".data, "ADV".data].contains tok.pos then
    let key := lowerStr tok.lemma_
    match awmLookup key with
    | some alts =>
      let (d, r1) := rng.next
      if d < mkRat 7 10 then
        let (i, r2) := r1.choiceIdx alts.length
        (match_case (alts.getD i []) tok.text, r2)
      else synSpacyWn env tok r1
    | none => synSpacyWn env tok rng
  else (tok.text, rng)

/-- `AcademicTextHumanizer._reconstruct_from_spacy_tokens` (source lines
435–448): each replacement followed by the token's trailing whitespace,
then `strip`.  (The discarded `"".join` at source line 364 has no effect
and cannot raise, so it is omitted.) -/
def reconstruct_from_spacy_tokens (toks : List SpacyToken) (outToks : List Str) : Str :=
  stripWs (((toks.zip outToks).map (fun p => p.2 ++ p.1.whitespace)).flatten)

/-- Scanner for `re.findall(r"\w+|[^\w\s]", sentence)`: maximal word-char
runs, single other non-space characters, whitespace skipped.  `acc` is the
current word run, reversed. -/
def findallTokensAux : Str → Str → List Str
  | [], acc => if acc = [] then [] else [acc.reverse]
  | c :: rest, acc =>
    if isWordChar c then findallTokensAux rest (c :: acc)
    else
      let pre := if acc = [] then ([] : List Str) else [acc.reverse]
      if isWsChar c then pre ++ findallTokensAux rest []
      else pre ++ [c] :: findallTokensAux rest []

def findallTokens (s : Str) : List Str := findallTokensAux s []

/-- `re.match(r"\w+", w)` on a token from `findallTokens`: non-empty and
starting with a word character. -/
def isWordTok (w : Str) : Bool := isWordOpt w.head?

/-- Pair each token with its NLTK POS tag: word tokens take tags in
order, other tokens none (the `tag_map` of source lines 374–379). -/
def assignTags : List Str → List Str → List (Str × Option Str)
  | [], _ => []
  | w :: ws, tags =>
    if isWordTok w then
      match tags with
      | t :: ts => (w, some t) :: assignTags ws ts
      | [] => (w, none) :: assignTags ws []
    else (w, none) :: assignTags ws tags

/-- WordNet stage of the NLTK fallback for one word (source lines
392–399): `key` is the lowercased word; a draw is consumed only when the
synonym list is non-empty. -/
def synFallbackWn (env : Env) (key : Str) (tag : Str) (w : Str) (rng : RNG) : Str × RNG :=
  match nltk_to_wordnet_pos tag with
  | none => (w, rng)
  | some wnp =>
    match get_simple_synonyms env key wnp with
    | none => (w, rng)
    | some syns =>
      let (d, r1) := rng.next
      if d < mkRat 9 20 then
        let (i, r2) := r1.choiceIdx syns.length
        (match_case (syns.getD i []) w, r2)
      else (w, r1)

/-- One word of the NLTK fallback (source lines 382–401): curated map
first (0.6 draw consumed only when the key is present), otherwise the
WordNet stage. -/
def synFallbackWord (env : Env) (w : Str) (tag : Str) (rng : RNG) : Str × RNG :=
  let key := lowerStr w
  match awmLookup key with
  | some alts =>
    let (d, r1) := rng.next
    if d < mkRat 3 5 then
      let (i, r2) := r1.choiceIdx alts.length
      (match_case (alts.getD i []) w, r2)
    else synFallbackWn env key tag w r1
  | none => synFallbackWn env key tag w rng

/-- One token of the NLTK fallback: only word tokens are candidates. -/
def synFallbackTok (env : Env) : Str × Option Str → RNG → Str × RNG
  | (w, some tag), rng => if isWordTok w then synFallbackWord env w tag rng else (w, rng)
  | (w, none), rng => (w, rng)

/-- Punctuation set of `_join_words_respecting_punct`'s regex
`\s+([,.;:?!])`. -/
def isJoinPunct (c : Char) : Bool :=
  c = ',' || c = '.' || c = ';' || c = ':' || c = '?' || c = '!'

/-- Scanner for `re.sub(r"\s+(P)", r"\1", s)` for a character class `P`:
delete any whitespace run immediately followed by a `P` character. -/
def rmWsBeforeSetAux (p : Char → Bool) : Nat → Str → Str
  | _, [] => []
  | skip+1, _ :: rest => rmWsBeforeSetAux p skip rest
  | 0, c :: rest =>
    if isWsChar c &&
        (match (rest.dropWhile isWsChar).head? with
         | some d => p d
         | none => false) then
      rmWsBeforeSetAux p (rest.takeWhile isWsChar).length rest
    else c :: rmWsBeforeSetAux p 0 rest

def rmWsBeforeSet (p : Char → Bool) (s : Str) : Str := rmWsBeforeSetAux p 0 s

/-- `re.sub(r"\s+,", ",", s)` and `re.sub(r"\s+\.", ".", s)`. -/
def rmWsBeforeChar (t : Char) (s : Str) : Str := rmWsBeforeSet (fun c => c = t) s

/-- `AcademicTextHumanizer._join_words_respecting_punct` (source lines
450–454). -/
def join_words_respecting_punct (ws : List Str) : Str :=
  rmWsBeforeSet isJoinPunct (joinSpace ws)

/-- `AcademicTextHumanizer._replace_with_synonyms_context` (source lines
313–407).  A spaCy token-parse failure falls through (with the random
state untouched, since the parse is the branch's first action) to the
NLTK fallback; a `pos_tag` failure — or too few tags, which would raise
`IndexError` inside the `tag_map` loop — is caught and returns the
sentence unchanged. -/
def replace_with_synonyms_context (nlp : Option SpacyModel) (env : Env) (s : Str)
    (rng : RNG) : Str × RNG :=
  let fallback : RNG → Str × RNG := fun rng0 =>
    let words := findallTokens s
    let wordToks := words.filter isWordTok
    match env.posTag wordToks with
    | .error _ => (s, rng0)
    | .ok tags =>
      if tags.length < wordToks.length then (s, rng0)
      else
        let (outWords, r1) := mapRngList (synFallbackTok env) (assignTags words tags) rng0
        (join_words_respecting_punct outWords, r1)
  match nlp with
  | none => fallback rng
  | some m =>
    match m.tokParse s with
    | .error _ => fallback rng
    | .ok toks =>
      let (outToks, r1) := mapRngList (synSpacyToken env) toks rng
      (reconstruct_from_spacy_tokens toks outToks, r1)

/-- Scanner for `re.sub(r"\s+", " ", s)`: each whitespace run becomes one
space; the flag records being inside a run. -/
def collapseWsAux : Bool → Str → Str
  | _, [] => []
  | inWs, c :: rest =>
    if isWsChar c then
      if inWs then collapseWsAux true rest else ' ' :: collapseWsAux true rest
    else c :: collapseWsAux false rest

def collapseWs (s : Str) : Str := collapseWsAux false s

/-- `AcademicTextHumanizer._final_clean_sentence` (source lines 456–464):
collapse whitespace and strip, remove whitespace before commas and
periods, uppercase the first character. -/
def final_clean_sentence (s : Str) : Str :=
  let s1 := stripWs (collapseWs s)
  let s2 := rmWsBeforeChar ',' s1
  let s3 := rmWsBeforeChar '.' s2
  match s3 with
  | [] => []
  | c :: rest => c.toUpper :: rest

/-- Scanner for `re.sub(r",\s*,+", ",", s)`: a comma, optional
whitespace, then one or more commas collapse to a single comma, scanning
resuming after the match. -/
def collapseCommaAux : Nat → Str → Str
  | _, [] => []
  | skip+1, _ :: rest => collapseCommaAux skip rest
  | 0, c :: rest =>
    if c = ',' then
      let wsLen := (rest.takeWhile isWsChar).length
      let commas := ((rest.drop wsLen).takeWhile (fun d => d = ',')).length
      if 0 < commas then ',' :: collapseCommaAux (wsLen + commas) rest
      else c :: collapseCommaAux 0 rest
    else c :: collapseCommaAux 0 rest

def collapseCommaRuns (s : Str) : Str := collapseCommaAux 0 s

/-- One repetition unit of the duplicated-transition pattern of
`_post_process_text` (source line 474): `\b(?:T1|...|T12),\s*`,
case-insensitive.  Returns the consumed length and the matched text.  (No
transition word is a prefix of another, so the regex alternation is
deterministic.) -/
def matchTransUnit (prev : Option Char) (s : Str) : Option (Nat × Str) :=
  if isWordOpt prev then none
  else
    match academic_transitions.find? (fun t => ciStartsWith t s) with
    | none => none
    | some t =>
      match s.drop t.length with
      | c :: rest2 =>
        if c = ',' then
          let n := t.length + 1 + (rest2.takeWhile isWsChar).length
          some (n, s.take n)
        else none
      | [] => none

/-- Replacement for a maximal run of transition units: `{2,}` repetitions
are replaced by `\1`, the last unit; a single unit (no regex match) is
kept verbatim. -/
def flushTransPending (pending : List Str) : Str :=
  if 2 ≤ pending.length then pending.getLastD [] else pending.flatten

/-- Scanner for
`re.sub(r'(\b(?:T1|...|T12),\s*){2,}', r'\1', text, flags=re.IGNORECASE)`:
accumulate maximal runs of consecutive units, replacing a run of two or
more by its last unit. -/
def collapseTransAux : List Str → Nat → Option Char → Str → Str
  | pending, _, _, [] => flushTransPending pending
  | pending, skip+1, _, c :: rest => collapseTransAux pending skip (some c) rest
  | pending, 0, prev, c :: rest =>
    match matchTransUnit prev (c :: rest) with
    | some (n+1, u) => collapseTransAux (pending ++ [u]) n (some c) rest
    | some (0, _) => flushTransPending pending ++ c :: collapseTransAux [] 0 (some c) rest
    | none => flushTransPending pending ++ c :: collapseTransAux [] 0 (some c) rest

def collapseTransitionRuns (s : Str) : Str := collapseTransAux [] 0 none s

/-- `AcademicTextHumanizer._post_process_text` (source lines 466–475). -/
def post_process_text (t : Str) : Str :=
  let t1 := rmWsBeforeChar ',' t
  let t2 := collapseCommaRuns t1
  let t3 := rmWsBeforeChar '.' t2
  let t4 := collapseWs t3
  let t5 := collapseTransitionRuns t4
  stripWs t5

/-- `"Error: input too long (max 20,000 characters)."` (source line
139).  The message names the limit but not the actual input length. -/
def inputTooLongMsg : Str := "Error: input too long (max 20,000 characters).".data

/-- The transformation part of `humanize_text`'s per-sentence loop
(source lines 152–168) on an already-stripped non-empty sentence: expand
contractions, the transition decision, then the passive and synonym
gates (each gate's draw consumed only when the corresponding flag is
set, by Python's short-circuit `and`), and the final per-sentence
cleanup. -/
def process_sentence_rest (nlp : Option SpacyModel) (env : Env) (cfg : HumCfg)
    (allowPassive allowSynonyms : Bool) (idx : Nat) (s1 : Str) (rng : RNG) :
    Str × RNG :=
  let (s2, r2) := transition_step cfg.p_transition idx s1 rng
  let (s3, r3) :=
    if allowPassive then
      let (d, ra) := r2.next
      if d < cfg.p_passive then safe_passive_transform nlp env s2 ra else (s2, ra)
    else (s2, r2)
  let (s4, r4) :=
    if allowSynonyms then
      let (d, rb) := r3.next
      if d < cfg.p_synonym then replace_with_synonyms_context nlp env s3 rb else (s3, rb)
    else (s3, r3)
  (final_clean_sentence s4, r4)

def process_sentence_core (nlp : Option SpacyModel) (env : Env) (cfg : HumCfg)
    (allowPassive allowSynonyms : Bool) (idx : Nat) (s0 : Str) (rng : RNG) :
    Str × RNG :=
  process_sentence_rest nlp env cfg allowPassive allowSynonyms idx
    (expand_contractions s0) rng

/-- The body of `humanize_text`'s per-sentence loop (source lines
147–169) for one sentence: strip, skipping empty sentences without
consuming randomness, then `process_sentence_core`. -/
def process_sentence (nlp : Option SpacyModel) (env : Env) (cfg : HumCfg)
    (allowPassive allowSynonyms : Bool) (idx : Nat) (sent : Str) (rng : RNG) :
    Option Str × RNG :=
  let s0 := stripWs sent
  if s0 = [] then (none, rng)
  else
    let (s, r) := process_sentence_core nlp env cfg allowPassive allowSynonyms idx s0 rng
    (some s, r)

/-- The `for idx, sent in enumerate(sentences)` loop of `humanize_text`:
the index advances on every sentence, skipped sentences contribute
nothing. -/
def process_loop (nlp : Option SpacyModel) (env : Env) (cfg : HumCfg)
    (allowPassive allowSynonyms : Bool) : Nat → List Str → RNG → List Str × RNG
  | _, [], rng => ([], rng)
  | idx, sent :: rest, rng =>
    match process_sentence nlp env cfg allowPassive allowSynonyms idx sent rng with
    | (none, r1) => process_loop nlp env cfg allowPassive allowSynonyms (idx+1) rest r1
    | (some s, r1) =>
      let (out, r2) := process_loop nlp env cfg allowPassive allowSynonyms (idx+1) rest r1
      (s :: out, r2)

/-- `AcademicTextHumanizer.humanize_text` (source lines 124–173),
returning the result together with the final global random state.  (The
`isinstance` guard of line 132 is unrepresentable in the typed model: the
input is a string by type.) -/
def humanize_textR (nlp : Option SpacyModel) (env : Env) (cfg : HumCfg) (rng : RNG)
    (text : Str) (allow_passive allow_synonyms : Bool) : Str × RNG :=
  let t := stripWs text
  if t = [] then ([], rng)
  else if 20000 < t.length then (inputTooLongMsg, rng)
  else
    let sentences := split_sentences nlp env t
    if sentences = [] then (t, rng)
    else
      let (transformed, r1) :=
        process_loop nlp env cfg allow_passive allow_synonyms 0 sentences rng
      (post_process_text (joinSpace transformed), r1)

def humanize_text (nlp : Option SpacyModel) (env : Env) (cfg : HumCfg) (rng : RNG)
    (text : Str) (allow_passive allow_synonyms : Bool) : Str :=
  (humanize_textR nlp env cfg rng text allow_passive allow_synonyms).1

/-- `AcademicTextHumanizer.__init__` (source lines 71–119): seeding the
global `random` module when a seed is given (replacing whatever state it
had), selecting the module-level spaCy model, and storing the
probabilities. -/
def construct_humanizer (env : Env) (p_passive p_synonym p_transition : ℚ)
    (seed : Option Int) (use_spacy_if_available : Bool) (globalRng : RNG) :
    (Option SpacyModel × HumCfg) × RNG :=
  let rng :=
    match seed with
    | some s => { vals := env.seedVals s, picks := env.seedPicks s, k := 0 }
    | none => globalRng
  ((if use_spacy_if_available then env.spacy else none,
    ⟨p_passive, p_synonym, p_transition⟩), rng)

/-- Construct a fresh `AcademicTextHumanizer` with a seed and run
`humanize_text`, as the determinism property does; `globalRng` is the
global random state left over from anything that ran before. -/
def humanize_fresh (env : Env) (p_passive p_synonym p_transition : ℚ) (seed : Int)
    (use_spacy_if_available : Bool) (globalRng : RNG) (text : Str)
    (allow_passive allow_synonyms : Bool) : Str × RNG :=
  let c := construct_humanizer env p_passive p_synonym p_transition (some seed)
    use_spacy_if_available globalRng
  humanize_textR c.1.1 env c.1.2 c.2 text allow_passive allow_synonyms

/-!
The `/api/process` endpoint of `src/app.py` (lines 31–56).

Python raises `TypeError` when a call passes a keyword argument that is
not among the callee's parameter names.  The endpoint's `try` block makes
two calls whose keyword arguments we record: the
`AcademicTextHumanizer(...)` constructor call and the
`humanizer.humanize_text(...)` call.  The catch-all `except Exception`
turns any such failure into a `ProcessResponse` with empty `result` and
an error string `"Processing error: " + str(e)`.
-/

/-- Keyword parameters accepted by `AcademicTextHumanizer.__init__`
(source `src/transformer/app.py` lines 71–78). -/
def init_params : List String :=
  ["p_passive", "p_synonym", "p_transition", "seed", "use_spacy_if_available"]

/-- Keyword-only parameters accepted by
`AcademicTextHumanizer.humanize_text` (source line 124). -/
def humanize_text_kw_params : List String := ["allow_passive", "allow_synonyms"]

/-- Keyword arguments of the constructor call in `process_text`
(`src/app.py` lines 41–45). -/
def endpoint_init_kwargs : List String :=
  ["p_passive", "p_synonym_replacement", "p_academic_transition"]

/-- Keyword arguments of the `humanize_text` call in `process_text`
(`src/app.py` lines 47–51). -/
def endpoint_humanize_kwargs : List String := ["use_passive", "use_synonyms"]

/-- A Python call raises `TypeError` when some keyword argument is not an
accepted parameter name. -/
def kwargsRejected (params kwargs : List String) : Bool :=
  kwargs.any (fun k => !(params.contains k))

/-- Where the `try` block of `process_text` raises, for a request whose
text passed the length guard. -/
inductive EndpointFailure
  | atConstructorCall
  | atHumanizeCall
deriving DecidableEq

/-- The first failing call of the `try` block (the constructor runs
before `humanize_text`). -/
def endpoint_failure_site : Option EndpointFailure :=
  if kwargsRejected init_params endpoint_init_kwargs then
    some EndpointFailure.atConstructorCall
  else if kwargsRejected humanize_text_kw_params endpoint_humanize_kwargs then
    some EndpointFailure.atHumanizeCall
  else none

/-- The `ProcessResponse` model of `src/app.py` (lines 27–29). -/
structure ProcessResponse where
  result : String
  error : Option String
deriving DecidableEq

/-- The `str(e)` of the `TypeError` raised by the constructor call (the
exact CPython wording is version-dependent; the claims only inspect the
`"Processing error: "` prefix added by the handler). -/
def constructorTypeErrorMsg : String :=
  "__init__() got an unexpected keyword argument 'p_synonym_replacement'"

/-- `process_text` (`src/app.py` lines 31–56) for a request with the
given text length: the length guard, then the `try` block, whose
`TypeError` is converted by the catch-all `except` into an error
response. -/
def process_text_endpoint (textLen : Nat) : ProcessResponse :=
  if 10000 < textLen then
    { result := "", error := some "Text too long! Maximum 10,000 characters allowed." }
  else
    match endpoint_failure_site with
    | some _ => { result := "", error := some ("Processing error: " ++ constructorTypeErrorMsg) }
    | none => { result := "<unreachable>", error := none }

/-!
Shared concrete fixtures for the claim theorems: a deterministic random
state whose draws are always 0 and whose choices always pick index 0, and
an environment in which spaCy is unavailable and the NLTK/WordNet
resources raise (their download at startup is best-effort, source lines
34–41).
-/

def rng0 : RNG := ⟨fun _ => 0, fun _ => 0, 0⟩

def env0 : Env :=
  { spacy := none
  , sentTokenize := fun _ => .error ()
  , posTag := fun _ => .error ()
  , wnVerbLemmas := fun _ => .error ()
  , wnSynLemmas := fun _ _ => .error ()
  , seedVals := fun _ _ => 0
  , seedPicks := fun _ _ => 0 }

/-- A loaded spaCy model whose parses all raise. -/
def spacyErr : SpacyModel :=
  { sents := fun _ => .error ()
  , depParse := fun _ => .error ()
  , tokParse := fun _ => .error () }

/-- Literal list prefix test. -/
def listStartsWith : Str → Str → Bool
  | [], _ => true
  | _ :: _, [] => false
  | a :: as, b :: bs => a = b && listStartsWith as bs

/-- Literal substring test: does `pat` occur contiguously in `s`? -/
def containsSub (pat : Str) : Str → Bool
  | [] => pat.isEmpty
  | c :: rest => listStartsWith pat (c :: rest) || containsSub pat rest

/-- C1: the endpoint's constructor call does raise `TypeError`, but at the
`AcademicTextHumanizer(...)` constructor — whose parameters are named
`p_synonym` and `p_transition`, not `p_synonym_replacement` and
`p_academic_transition` — so execution never reaches the
`humanize_text(...)` call that the claim blames. -/
theorem c1_failure_site_is_constructor :
    endpoint_failure_site = some EndpointFailure.atConstructorCall ∧
    endpoint_failure_site ≠ some EndpointFailure.atHumanizeCall := by
  decide

/-- C1 (amended): every request reaching the `try` block with text of
length at most 10,000 raises `TypeError` at the constructor call (whose
keyword arguments `p_synonym_replacement` and `p_academic_transition` are
not parameters of `__init__`), so the catch-all `except` makes every such
request return an empty result and an error starting with
`"Processing error:"`; the `humanize_text` call, had it been reached,
would also have raised `TypeError`, its option parameters being
keyword-only `allow_passive`/`allow_synonyms` rather than
`use_passive`/`use_synonyms`. -/
theorem c1_every_small_request_errors (textLen : Nat) (h : textLen ≤ 10000) :
    process_text_endpoint textLen =
      { result := ""
      , error := some ("Processing error: " ++ constructorTypeErrorMsg) } ∧
    (listStartsWith ("Processing error:".data)
      ("Processing error: " ++ constructorTypeErrorMsg).data = true) ∧
    kwargsRejected init_params endpoint_init_kwargs = true ∧
    kwargsRejected humanize_text_kw_params endpoint_humanize_kwargs = true := by
  have h2 : ¬ (10000 < textLen) := by omega
  refine ⟨?_, by decide, by decide, by decide⟩
  simp only [process_text_endpoint, if_neg h2]
  decide

theorem c1_every_small_request_errors_witness :
    process_text_endpoint 5 =
      { result := ""
      , error := some ("Processing error: " ++ constructorTypeErrorMsg) } ∧
    (listStartsWith ("Processing error:".data)
      ("Processing error: " ++ constructorTypeErrorMsg).data = true) ∧
    kwargsRejected init_params endpoint_init_kwargs = true ∧
    kwargsRejected humanize_text_kw_params endpoint_humanize_kwargs = true :=
  c1_every_small_request_errors 5 (by decide)

/-- The string `"Don't"`. -/
def dontWord : Str := ['D','o','n',apos,'t']

/-- The sentence `"I can't believe it's working."`. -/
def cantSent : Str :=
  "I can".data ++ [apos] ++ "t believe it".data ++ [apos] ++ "s working.".data

/-- C3 counterexample: `_expand_contractions` substitutes the literal
lowercase expansion, so `"Don't"` becomes `"do not"`, not the
claimed `"Do not"` — first-letter capitalization of the match is not
preserved. -/
theorem c3_dont_loses_capitalization :
    expand_contractions dontWord = "do not".data ∧
    expand_contractions dontWord ≠ "Do not".data := by
  decide

/-- C3 (amended): contraction matching is case-insensitive (the key
`don't` matches `"Don't"`), but the replacement is the literal lowercase
expansion, so the first-letter capitalization of the original match is
lost; for the input `"I can't believe it's working."` the result is
exactly `"I cannot believe it is working."`, which contains `"cannot"`
and `"it is"` and no remaining `"can't"` or `"it's"`. -/
theorem c3_case_insensitive_literal_replacement :
    expand_contractions (dontWord ++ " stop.".data) = "do not stop.".data ∧
    expand_contractions cantSent = "I cannot believe it is working.".data ∧
    containsSub ("cannot".data) (expand_contractions cantSent) = true ∧
    containsSub ("it is".data) (expand_contractions cantSent) = true ∧
    containsSub ("can".data ++ [apos] ++ "t".data) (expand_contractions cantSent) = false ∧
    containsSub ("it".data ++ [apos] ++ "s".data) (expand_contractions cantSent) = false := by
  decide

/-- C6 counterexample: for the second sentence (index 1), a draw of 0 is
below the probability 1 and the sentence does not start with a transition,
yet `transition_step` leaves it unmodified, because of the `idx % 3 == 0`
conjunct of source line 155 that the claim omits. -/
theorem c6_index_gate_skips_injection :
    rng0.vals rng0.k < (1 : ℚ) ∧
    starts_with_transition ("It works well.".data) = false ∧
    (transition_step 1 1 ("It works well.".data) rng0).1 = "It works well.".data := by
  decide

/-- Every `getD`-chosen transition is in the vocabulary. -/
theorem transition_choice_mem (i : Nat) :
    academic_transitions.getD (i % 12) [] ∈ academic_transitions := by
  have h : i % 12 < 12 := Nat.mod_lt _ (by norm_num)
  interval_cases h2 : i % 12 <;> decide

/-- C6 (amended): injection is skipped when the draw is not below the
configured probability, or the sentence index is not divisible by 3, or
the sentence already starts (case-insensitively) with a transition word;
in every other case the sentence is prefixed with `"<Transition>, "`
(the sentence's first letter uppercased if it was lowercase), the
transition being chosen from the fixed vocabulary by the random choice
stream. -/
theorem c6_transition_policy (p : ℚ) (idx : Nat) (s : Str) (rng : RNG) :
    ((¬ (rng.vals rng.k < p) ∨ idx % 3 ≠ 0 ∨ starts_with_transition s = true) →
      (transition_step p idx s rng).1 = s) ∧
    (rng.vals rng.k < p → idx % 3 = 0 → starts_with_transition s = false →
      ∃ t, t ∈ academic_transitions ∧
        (transition_step p idx s rng).1 = t ++ [',', ' '] ++ capitalize_if_lower s) := by
  constructor
  · intro h
    have hcond : ¬ (rng.vals rng.k < p ∧ idx % 3 = 0 ∧ starts_with_transition s = false) := by
      rcases h with h | h | h
      · exact fun hc => h hc.1
      · exact fun hc => h hc.2.1
      · exact fun hc => by simp [h] at hc
    simp only [transition_step, RNG.next, if_neg hcond]
  · intro h1 h2 h3
    have hcond : rng.vals rng.k < p ∧ idx % 3 = 0 ∧ starts_with_transition s = false :=
      ⟨h1, h2, h3⟩
    refine ⟨academic_transitions.getD (rng.picks (rng.k + 1) % 12) [],
      transition_choice_mem _, ?_⟩
    simp only [transition_step, RNG.next, add_transition, RNG.choiceIdx]
    rw [if_pos hcond]
    rfl

theorem c6_transition_policy_witness :
    ((¬ ((0:ℚ) < 1) ∨ 1 % 3 ≠ 0 ∨ starts_with_transition ("It works well.".data) = true) →
      (transition_step 1 1 ("It works well.".data) rng0).1 = "It works well.".data) ∧
    ((0:ℚ) < 1 → 1 % 3 = 0 → starts_with_transition ("It works well.".data) = false →
      ∃ t, t ∈ academic_transitions ∧
        (transition_step 1 1 ("It works well.".data) rng0).1 =
          t ++ [',', ' '] ++ capitalize_if_lower ("It works well.".data)) :=
  c6_transition_policy 1 1 ("It works well.".data) rng0

/-- C7 counterexample: when the dependency parse raises and the fallback
draw is below 0.35, the sentence is returned with the fixed clause
`" This can be observed empirically."` appended — not unmodified. -/
theorem c7_exception_appends_clause :
    spacyErr.depParse ("The team uses tools".data) = Except.error () ∧
    (safe_passive_transform (some spacyErr) env0 ("The team uses tools".data) rng0).1
      = "The team uses tools".data ++ empiricalClause ∧
    "The team uses tools".data ++ empiricalClause ≠ "The team uses tools".data := by
  refine ⟨rfl, by decide, by decide⟩

/-- C7 (amended): when the dependency parse raises, the exception is
caught and `_safe_passive_transform` returns either the original sentence
or the original sentence with the fixed clause
`" This can be observed empirically."` appended (never a propagated
exception, so the overall `humanize_text` call cannot fail here) — but
not always the sentence unmodified. -/
theorem c7_exception_caught_or_clause (m : SpacyModel) (env : Env) (s : Str) (rng : RNG)
    (h : m.depParse s = Except.error ()) :
    (safe_passive_transform (some m) env s rng).1 = s ∨
    (safe_passive_transform (some m) env s rng).1 = s ++ empiricalClause := by
  by_cases hshort : s = [] ∨ (splitWs s).length < 4
  · left
    simp only [safe_passive_transform, if_pos hshort]
  · simp only [safe_passive_transform, if_neg hshort, h, RNG.next]
    by_cases hd : rng.vals rng.k < mkRat 7 20
    · right; simp only [if_pos hd]
    · left; simp only [if_neg hd]

theorem c7_exception_caught_or_clause_witness :
    (safe_passive_transform (some spacyErr) env0 ("The team uses tools".data) rng0).1
      = "The team uses tools".data ∨
    (safe_passive_transform (some spacyErr) env0 ("The team uses tools".data) rng0).1
      = "The team uses tools".data ++ empiricalClause :=
  c7_exception_caught_or_clause spacyErr env0 ("The team uses tools".data) rng0 rfl

/-- C9: `random.seed(seed)` in `__init__` discards whatever state the
global random module had, so two `humanize_text` calls on freshly
constructed humanizers with the same seed, environment, configuration,
options and input produce identical output regardless of the prior
global random states `g1` and `g2`. -/
theorem c9_deterministic_under_seed (env : Env) (pP pS pT : ℚ) (seed : Int)
    (useSp : Bool) (g1 g2 : RNG) (text : Str) (aP aS : Bool) :
    (humanize_fresh env pP pS pT seed useSp g1 text aP aS).1 =
    (humanize_fresh env pP pS pT seed useSp g2 text aP aS).1 := rfl

/-- Top-level sentence units of a text, counted by the same segmentation
the source uses as its final fallback (regex split at sentence-final
punctuation, stripped, empties dropped). -/
def sent_units (t : Str) : Nat :=
  (((regexSentSplit t).map stripWs).filter (fun s => !s.isEmpty)).length

/-- The two-sentence input used for the sentence-count claims. -/
def sampleC8 : Str := "The team uses new methods. It works well.".data

/-- C8 counterexample: with every probability gate at 1 (and spaCy
unavailable, NLTK raising), the maximally enabled pipeline turns the
two-sentence input into three top-level sentence units, because the
passive fallback appends the whole extra sentence
`"This observation is supported by the evidence."`. -/
theorem c8_passive_fallback_adds_sentence :
    humanize_text none env0 ⟨1, 1, 1⟩ rng0 sampleC8 true true =
      ("Moreover, The team uses new methods. " ++
       "This observation is supported by the evidence. It works well.").data ∧
    sent_units (humanize_text none env0 ⟨1, 1, 1⟩ rng0 sampleC8 true true) = 3 ∧
    sent_units sampleC8 = 2 := by
  refine ⟨by decide, by decide, by decide⟩

/-- C8 (amended): the per-sentence loop maps each non-empty stripped
sentence to exactly one transformed chunk, in order — no chunk is
dropped, reordered or added, whatever the options, probabilities,
environment and random state — but a chunk itself can contain more than
one sentence unit (the passive fallback appends a whole sentence), so
the count of top-level sentence units of the final text can exceed the
input's. -/
theorem c8_loop_preserves_chunk_count (nlp : Option SpacyModel) (env : Env)
    (cfg : HumCfg) (aP aS : Bool) :
    ∀ (sents : List Str) (idx : Nat) (rng : RNG),
    (process_loop nlp env cfg aP aS idx sents rng).1.length
      = sents.countP (fun s => !(stripWs s).isEmpty) := by
  intro sents
  induction sents with
  | nil => intro idx rng; rfl
  | cons sent rest ih =>
    intro idx rng
    by_cases h : stripWs sent = []
    · simp [process_loop, process_sentence, h, ih]
    · rcases hc : process_sentence_core nlp env cfg aP aS idx (stripWs sent) rng with ⟨a, b⟩
      have hne : (stripWs sent).isEmpty = false := by
        cases hs : stripWs sent with
        | nil => exact absurd hs h
        | cons x xs => rfl
      simp [process_loop, process_sentence, h, hc, hne, ih]

/-- With `p_transition = 0` and a valid random state, one sentence is only
expanded and cleaned: the transition draw is consumed but the gate never
fires (a draw in `[0,1)` is never `< 0`), and the disabled passive and
synonym steps consume nothing. -/
theorem transition_step_gate_closed (p : ℚ) (idx : Nat) (s : Str) (rng : RNG)
    (hd : ¬ (rng.vals rng.k < p ∧ idx % 3 = 0 ∧ starts_with_transition s = false)) :
    transition_step p idx s rng = (s, ⟨rng.vals, rng.picks, rng.k + 1⟩) := by
  simp only [transition_step, RNG.next, if_neg hd]

theorem process_sentence_rest_gates_off (nlp : Option SpacyModel) (env : Env)
    (cfg : HumCfg) (h0 : cfg.p_transition = 0) (idx : Nat) (s1 : Str) (rng : RNG)
    (hv : rng.Valid) :
    process_sentence_rest nlp env cfg false false idx s1 rng
      = (final_clean_sentence s1, ⟨rng.vals, rng.picks, rng.k + 1⟩) := by
  have hd : ¬ (rng.vals rng.k < cfg.p_transition ∧ idx % 3 = 0 ∧
      starts_with_transition s1 = false) := by
    rw [h0]
    intro hc
    exact absurd hc.1 (not_lt.2 (hv rng.k).1)
  simp only [process_sentence_rest, transition_step_gate_closed cfg.p_transition idx s1 rng hd]
  simp

theorem process_sentence_core_gates_off (nlp : Option SpacyModel) (env : Env)
    (cfg : HumCfg) (h0 : cfg.p_transition = 0) (idx : Nat) (s0 : Str) (rng : RNG)
    (hv : rng.Valid) :
    process_sentence_core nlp env cfg false false idx s0 rng
      = (final_clean_sentence (expand_contractions s0),
         ⟨rng.vals, rng.picks, rng.k + 1⟩) := by
  unfold process_sentence_core
  exact process_sentence_rest_gates_off nlp env cfg h0 idx (expand_contractions s0) rng hv

/-- The per-sentence loop with both options disabled and
`p_transition = 0` normalizes each non-empty sentence independently. -/
theorem process_loop_gates_off (nlp : Option SpacyModel) (env : Env) (cfg : HumCfg)
    (h0 : cfg.p_transition = 0) :
    ∀ (sents : List Str) (idx : Nat) (rng : RNG), rng.Valid →
    (process_loop nlp env cfg false false idx sents rng).1
      = ((sents.map stripWs).filter (fun s => !s.isEmpty)).map
          (fun s => final_clean_sentence (expand_contractions s)) := by
  intro sents
  induction sents with
  | nil => intro idx rng hv; rfl
  | cons sent rest ih =>
    intro idx rng hv
    by_cases h : stripWs sent = []
    · simp [process_loop, process_sentence, h, ih (idx+1) rng hv]
    · have hcore := process_sentence_core_gates_off nlp env cfg h0 idx (stripWs sent) rng hv
      have hv2 : RNG.Valid ⟨rng.vals, rng.picks, rng.k + 1⟩ := hv
      have hne : (stripWs sent).isEmpty = false := by
        cases hs : stripWs sent with
        | nil => exact absurd hs h
        | cons x xs => rfl
      simp [process_loop, process_sentence, h, hcore, hne, ih (idx+1) _ hv2]

/-- The specification's description of the pipeline with every rewrite
gate off (spec §8, first property): segment, then for each trimmed
non-empty sentence apply only contraction expansion and the
whitespace/punctuation cleanup, join with single spaces and apply the
final text-level cleanup. -/
def spec_normalize_only (nlp : Option SpacyModel) (env : Env) (text : Str) : Str :=
  let sents := split_sentences nlp env text
  if sents = [] then text
  else
    post_process_text (joinSpace
      (((sents.map stripWs).filter (fun s => !s.isEmpty)).map
        (fun s => final_clean_sentence (expand_contractions s))))

/-- The input of the spec's end-to-end scenario. -/
def sampleC2 : Str :=
  "The researchers use a new method. It shows that the approach works well.".data

/-- C2: with passive and synonyms disabled and `p_transition = 0`,
`humanize_text` applies only contraction expansion and
whitespace/punctuation normalization to every accepted non-empty input
(it equals the spec's normalization-only pipeline), and on the spec's
end-to-end input the output is exactly the input. -/
theorem c2_gates_off_is_normalize_only :
    (∀ (nlp : Option SpacyModel) (env : Env) (cfg : HumCfg) (rng : RNG) (text : Str),
      rng.Valid → cfg.p_transition = 0 → stripWs text ≠ [] →
      (stripWs text).length ≤ 20000 →
      humanize_text nlp env cfg rng text false false
        = spec_normalize_only nlp env (stripWs text)) ∧
    humanize_text none env0 ⟨mkRat 1 4, mkRat 9 20, 0⟩ rng0 sampleC2 false false
      = sampleC2 := by
  constructor
  · intro nlp env cfg rng text hv h0 hne hlen
    have hlen2 : ¬ (20000 < (stripWs text).length) := by omega
    by_cases hs : split_sentences nlp env (stripWs text) = []
    · simp [humanize_text, humanize_textR, spec_normalize_only, hne, hlen2, hs]
    · have hl := process_loop_gates_off nlp env cfg h0
        (split_sentences nlp env (stripWs text)) 0 rng hv
      rcases hp : process_loop nlp env cfg false false 0
          (split_sentences nlp env (stripWs text)) rng with ⟨a, b⟩
      rw [hp] at hl
      simp only at hl
      simp [humanize_text, humanize_textR, spec_normalize_only, hne, hlen2, hs, hp, hl]
  · decide

theorem c2_gates_off_witness :
    humanize_text none env0 ⟨mkRat 1 4, mkRat 9 20, 0⟩ rng0 sampleC2 false false
      = spec_normalize_only none env0 (stripWs sampleC2) :=
  (c2_gates_off_is_normalize_only.1 none env0 ⟨mkRat 1 4, mkRat 9 20, 0⟩ rng0 sampleC2
    (fun _ => ⟨le_refl 0, show (0:ℚ) < 1 by norm_num⟩) rfl (by decide) (by decide))

/-- Only the apostrophe lowercases to the apostrophe (`toLower` moves
only `A`–`Z`, into `a`–`z`). -/
theorem toLower_eq_apos {c : Char} (h : Char.toLower c = apos) : c = apos := by
  unfold Char.toLower at h
  dsimp only at h
  split at h
  · rename_i hc
    obtain ⟨h1, h2⟩ := hc
    obtain ⟨n, hn⟩ : ∃ n, c.toNat = n := ⟨_, rfl⟩
    rw [hn] at h1 h2 h
    interval_cases n <;> exact absurd h (by decide)
  · exact h

/-- `toLower` maps letters to letters. -/
theorem isAlpha_toLower {c : Char} (h : c.isAlpha = true) :
    (Char.toLower c).isAlpha = true := by
  unfold Char.toLower
  dsimp only
  split
  · rename_i hc
    obtain ⟨h1, h2⟩ := hc
    obtain ⟨n, hn⟩ : ∃ n, c.toNat = n := ⟨_, rfl⟩
    rw [hn] at h1 h2 ⊢
    interval_cases n <;> decide
  · exact h

theorem ciStartsWith_length {k s : Str} (h : ciStartsWith k s = true) :
    k.length ≤ s.length := by
  induction k generalizing s with
  | nil => simp
  | cons a as ih =>
    cases s with
    | nil => exact absurd h (by simp [ciStartsWith])
    | cons b bs =>
      simp only [ciStartsWith, Bool.and_eq_true] at h
      simpa [Nat.succ_le_succ_iff] using ih h.2

/-- A case-insensitive prefix match determines the lowercased text. -/
theorem ciStartsWith_lower {k s : Str} (h : ciStartsWith k s = true) :
    lowerStr (s.take k.length) = lowerStr k := by
  induction k generalizing s with
  | nil => simp [lowerStr]
  | cons a as ih =>
    cases s with
    | nil => exact absurd h (by simp [ciStartsWith])
    | cons b bs =>
      simp only [ciStartsWith, Bool.and_eq_true, decide_eq_true_eq] at h
      simp only [List.length_cons, List.take_succ_cons, lowerStr, List.map_cons]
      exact congrArg₂ List.cons h.1.symm (ih h.2)

theorem matchKeyAt_false_of_ci {k : Str} (prev : Option Char) {s : Str}
    (h : ciStartsWith k s = false) : matchKeyAt k prev s = false := by
  simp [matchKeyAt, h]

theorem matchKeyAt_false_of_boundary {k : Str} (prev : Option Char) {s : Str}
    (h : wordBoundary prev s.head? = false) : matchKeyAt k prev s = false := by
  simp [matchKeyAt, h]

/-- Fold a list of substitution passes that each leave `s` unchanged. -/
theorem foldl_subKey_id (l : List (Str × Str)) (s : Str)
    (h : ∀ kv ∈ l, subKey kv.1 kv.2 s = s) :
    l.foldl (fun acc kv => subKey kv.1 kv.2 acc) s = s := by
  induction l with
  | nil => rfl
  | cons kv rest ih =>
    simp only [List.foldl_cons, h kv (List.mem_cons_self kv rest)]
    exact ih (fun kv2 h2 => h kv2 (List.mem_cons_of_mem _ h2))

/-- Every contraction key contains an apostrophe (lowercased). -/
theorem contraction_keys_have_apos :
    ∀ kv ∈ sortedContractions, apos ∈ lowerStr kv.1 := by decide

/-- A pass for a key containing an apostrophe never fires on text without
apostrophes. -/
theorem subKeyAux_id_of_no_apos (k v : Str) (hk : apos ∈ lowerStr k) :
    ∀ (s : Str) (prev : Option Char), apos ∉ s → subKeyAux k v 0 prev s = s := by
  intro s
  induction s with
  | nil => intro prev _; rfl
  | cons c rest ih =>
    intro prev h
    have hci : ciStartsWith k (c :: rest) = false := by
      cases hcase : ciStartsWith k (c :: rest) with
      | false => rfl
      | true =>
        exfalso
        have heq := ciStartsWith_lower hcase
        rw [← heq] at hk
        obtain ⟨d, hd, hdeq⟩ := List.mem_map.1 hk
        have hda : d = apos := toLower_eq_apos hdeq
        exact h (hda ▸ List.take_subset _ _ hd)
    simp [subKeyAux, matchKeyAt_false_of_ci prev hci,
      ih (some c) (fun hm => h (List.mem_cons_of_mem _ hm))]

/-- `_expand_contractions` is the identity on apostrophe-free text: every
key contains an apostrophe inside its word boundaries. -/
theorem expand_contractions_id_of_no_apos (s : Str) (h : apos ∉ s) :
    expand_contractions s = s := by
  unfold expand_contractions
  apply foldl_subKey_id
  intro kv hkv
  exact subKeyAux_id_of_no_apos kv.1 kv.2 (contraction_keys_have_apos kv hkv) s none h

/-- The three-character contraction tail `n't`. -/
def ntSuffix : Str := ['n', apos, 't']

/-- Bundle of decidable facts about the contraction keys used in the
`n't`-suffix analysis. -/
theorem contraction_key_facts :
    ∀ kv ∈ sortedContractions,
      lowerStr kv.1 = kv.1 ∧
      apos ∈ kv.1 ∧
      kv.1.getLast? ≠ some 'n' ∧
      (['n', apos]).isSuffixOf kv.1 = false ∧
      ciStartsWith kv.1 [apos, 't'] = false ∧
      ciStartsWith kv.1 ['t'] = false ∧
      kv.1 ∈ contractions_map.map Prod.fst := by decide

/-- Scanning the tail `n't` from a word character: the leading `\b` of a
letter-initial key cannot fall between two word characters, and no key is
a case-insensitive prefix of `'t` or `t`. -/
theorem subKeyAux_nt_tail (k v : Str) (prev : Option Char)
    (hw : isWordOpt prev = true)
    (hc1 : ciStartsWith k [apos, 't'] = false)
    (hc2 : ciStartsWith k ['t'] = false) :
    subKeyAux k v 0 prev ntSuffix = ntSuffix := by
  have hb : wordBoundary prev (some 'n') = false := by
    simp only [wordBoundary, hw]
    decide
  have h1 : matchKeyAt k prev ('n' :: [apos, 't']) = false :=
    matchKeyAt_false_of_boundary prev hb
  have h2 : matchKeyAt k (some 'n') [apos, 't'] = false := matchKeyAt_false_of_ci _ hc1
  have h3 : matchKeyAt k (some apos) ['t'] = false := matchKeyAt_false_of_ci _ hc2
  simp [ntSuffix, subKeyAux, h1, h2, h3]

/-- Scanning an alphabetic block from a word character: every position is
between two word characters, so `\b` never holds. -/
theorem subKeyAux_alpha_block (k v : Str)
    (hc1 : ciStartsWith k [apos, 't'] = false)
    (hc2 : ciStartsWith k ['t'] = false) :
    ∀ (X : Str), (∀ c ∈ X, c.isAlpha = true) → ∀ prev, isWordOpt prev = true →
    subKeyAux k v 0 prev (X ++ ntSuffix) = X ++ ntSuffix := by
  intro X
  induction X with
  | nil =>
    intro _ prev hw
    simpa using subKeyAux_nt_tail k v prev hw hc1 hc2
  | cons c X2 ih =>
    intro hX prev hw
    have hcal : c.isAlpha = true := hX c (List.mem_cons_self c X2)
    have hcw : isWordChar c = true := by
      simp [isWordChar, Char.isAlphanum, hcal]
    have hwc : isWordOpt (some c) = true := by
      simp only [isWordOpt]
      exact hcw
    have hb : wordBoundary prev (some c) = false := by
      simp only [wordBoundary, hw, hwc]
      rfl
    have h1 : matchKeyAt k prev (c :: (X2 ++ ntSuffix)) = false :=
      matchKeyAt_false_of_boundary prev hb
    have h2 := ih (fun d hd => hX d (List.mem_cons_of_mem _ hd)) (some c)
      (by simpa [isWordOpt] using hcw)
    simp [subKeyAux, h1, h2]

/-- No contraction key can case-insensitively match at the very start of
an alphabetic word followed by `n't`, unless the whole word is itself a
key (excluded by `hne`): a shorter match would make the key
apostrophe-free or end in `n` or `n'`, which no key does. -/
theorem ci_kill_at_start (k : Str) (X : Str)
    (hX : ∀ c ∈ X, c.isAlpha = true)
    (hlow : lowerStr k = k)
    (hapos : apos ∈ k)
    (hlast : k.getLast? ≠ some 'n')
    (hsuf : (['n', apos]).isSuffixOf k = false)
    (hne : k ≠ lowerStr (X ++ ntSuffix)) :
    ciStartsWith k (X ++ ntSuffix) = false := by
  cases hci : ciStartsWith k (X ++ ntSuffix) with
  | false => rfl
  | true =>
    exfalso
    have hlen : k.length ≤ X.length + 3 := by
      have := ciStartsWith_length hci
      simpa [ntSuffix] using this
    have heq : k = lowerStr ((X ++ ntSuffix).take k.length) := by
      rw [ciStartsWith_lower hci, hlow]
    have hcases : k.length ≤ X.length ∨ k.length = X.length + 1 ∨
        k.length = X.length + 2 ∨ k.length = X.length + 3 := by omega
    rcases hcases with hc | hc | hc | hc
    · have htake : (X ++ ntSuffix).take k.length = X.take k.length := by
        rw [List.take_append_eq_append_take, Nat.sub_eq_zero_of_le hc, List.take_zero,
          List.append_nil]
      rw [htake] at heq
      have : apos ∈ lowerStr (X.take k.length) := heq ▸ hapos
      obtain ⟨d, hd, hdeq⟩ := List.mem_map.1 this
      have hda : d = apos := toLower_eq_apos hdeq
      have : apos ∈ X := hda ▸ List.take_subset _ _ hd
      exact absurd (hX apos this) (by decide)
    · have htake : (X ++ ntSuffix).take k.length = X ++ ['n'] := by
        rw [hc, List.take_append_eq_append_take,
          List.take_of_length_le (by omega), Nat.add_sub_cancel_left]
        rfl
      rw [htake] at heq
      have : k.getLast? = some 'n' := by
        rw [heq, lowerStr, List.map_append]
        simp
      exact hlast this
    · have htake : (X ++ ntSuffix).take k.length = X ++ ['n', apos] := by
        rw [hc, List.take_append_eq_append_take,
          List.take_of_length_le (by omega)]
        have h2 : X.length + 2 - X.length = 2 := by omega
        rw [h2]
        rfl
      rw [htake] at heq
      have hs2 : (['n', apos]).isSuffixOf k = true := by
        rw [heq, lowerStr, List.map_append]
        have hmap : List.map Char.toLower ['n', apos] = ['n', apos] := by decide
        rw [hmap, List.isSuffixOf_iff_suffix]
        exact List.suffix_append _ _
      rw [hsuf] at hs2
      exact Bool.false_ne_true hs2
    · have htake : (X ++ ntSuffix).take k.length = X ++ ntSuffix := by
        apply List.take_of_length_le
        simp only [List.length_append]
        have h3 : ntSuffix.length = 3 := rfl
        omega
      rw [htake] at heq
      exact hne heq

/-- One substitution pass leaves an alphabetic word with an `n't` tail
unchanged when the word is not itself (case-insensitively) the key. -/
theorem subKey_nt_id (k v : Str)
    (hlow : lowerStr k = k)
    (hapos : apos ∈ k)
    (hlast : k.getLast? ≠ some 'n')
    (hsuf : (['n', apos]).isSuffixOf k = false)
    (hc1 : ciStartsWith k [apos, 't'] = false)
    (hc2 : ciStartsWith k ['t'] = false)
    (X : Str) (hX : ∀ c ∈ X, c.isAlpha = true)
    (hne : k ≠ lowerStr (X ++ ntSuffix)) :
    subKey k v (X ++ ntSuffix) = X ++ ntSuffix := by
  have hstart : ciStartsWith k (X ++ ntSuffix) = false :=
    ci_kill_at_start k X hX hlow hapos hlast hsuf hne
  unfold subKey
  cases X with
  | nil =>
    have h1 : matchKeyAt k none ([] ++ ntSuffix) = false := matchKeyAt_false_of_ci _ hstart
    have h2 : matchKeyAt k (some 'n') [apos, 't'] = false := matchKeyAt_false_of_ci _ hc1
    have h3 : matchKeyAt k (some apos) ['t'] = false := matchKeyAt_false_of_ci _ hc2
    simp only [List.nil_append] at h1 ⊢
    simp only [ntSuffix] at h1
    simp [ntSuffix, subKeyAux, h1, h2, h3]
  | cons c X2 =>
    have h1 : matchKeyAt k none ((c :: X2) ++ ntSuffix) = false :=
      matchKeyAt_false_of_ci _ hstart
    have hcal : c.isAlpha = true := hX c (List.mem_cons_self c X2)
    have hcw : isWordOpt (some c) = true := by
      simp only [isWordOpt, isWordChar, Char.isAlphanum, hcal]
      rfl
    have h2 := subKeyAux_alpha_block k v hc1 hc2 X2
      (fun d hd => hX d (List.mem_cons_of_mem _ hd)) (some c) hcw
    simp only [List.cons_append] at h1
    simp [subKeyAux, h1, h2]

/-- C4: `_expand_contractions` leaves every alphabetic word ending in
`n't` unchanged unless the whole word is (case-insensitively) one of the
full contraction keys: each key is compiled inside `\b` word boundaries,
every key contains an apostrophe, and the suffix key `n't` cannot match
after a word character, so the general `n't` rule never fires on words
such as `shouldn't`, `couldn't`, `wouldn't`. -/
theorem c4_nt_words_unchanged (X : Str)
    (hX : ∀ c ∈ X, c.isAlpha = true)
    (hne : lowerStr (X ++ ntSuffix) ∉ contractions_map.map Prod.fst) :
    expand_contractions (X ++ ntSuffix) = X ++ ntSuffix := by
  unfold expand_contractions
  apply foldl_subKey_id
  intro kv hkv
  obtain ⟨hlow, hapos, hlast, hsuf, hc1, hc2, hmem⟩ := contraction_key_facts kv hkv
  refine subKey_nt_id kv.1 kv.2 hlow hapos hlast hsuf hc1 hc2 X hX ?_
  intro hk
  exact hne (hk ▸ hmem)

theorem c4_nt_words_unchanged_witness :
    expand_contractions ("should".data ++ ntSuffix) = "should".data ++ ntSuffix :=
  c4_nt_words_unchanged "should".data (by decide) (by decide)

/-- No two adjacent characters of `s` satisfy `q`. -/
def noAdjPair (q : Char → Char → Bool) : Str → Bool
  | c :: d :: rest => !q c d && noAdjPair q (d :: rest)
  | _ => true

theorem noAdjPair_tail {q : Char → Char → Bool} {c : Char} {rest : Str}
    (h : noAdjPair q (c :: rest) = true) : noAdjPair q rest = true := by
  cases rest with
  | nil => rfl
  | cons d r2 =>
    simp only [noAdjPair, Bool.and_eq_true] at h
    exact h.2

theorem noAdjPair_head {q : Char → Char → Bool} {c d : Char} {rest : Str}
    (h : noAdjPair q (c :: d :: rest) = true) : q c d = false := by
  simp only [noAdjPair, Bool.and_eq_true] at h
  simpa using h.1

/-- Two starts that are pairwise `q`-equivalent give the same
`noAdjPair`. -/
theorem noAdjPair_congr_head (q : Char → Char → Bool) (c1 c2 : Char) (tl : Str)
    (h : ∀ d, q c1 d = q c2 d) : noAdjPair q (c1 :: tl) = noAdjPair q (c2 :: tl) := by
  cases tl with
  | nil => rfl
  | cons d r2 => simp only [noAdjPair, h d]

/-- No whitespace run precedes a `p`-character. -/
def noWsRun (p : Char → Bool) (s : Str) : Bool :=
  noAdjPair (fun c d => isWsChar c && isWsChar d) s &&
  noAdjPair (fun c d => isWsChar c && p d) s

/-- `re.sub(r"\s+(P)", ...)` is the identity when no `P`-character occurs
at all. -/
theorem rmWsBeforeSetAux_id_no_target (p : Char → Bool) :
    ∀ s : Str, (∀ c ∈ s, p c = false) → rmWsBeforeSetAux p 0 s = s := by
  intro s
  induction s with
  | nil => intro _; rfl
  | cons c rest ih =>
    intro h
    have hcond : (isWsChar c &&
        (match (rest.dropWhile isWsChar).head? with
         | some d => p d
         | none => false)) = false := by
      cases hd : (rest.dropWhile isWsChar).head? with
      | none => simp
      | some d =>
        have hdm : d ∈ rest := by
          have : d ∈ rest.dropWhile isWsChar := List.mem_of_mem_head? hd
          exact List.dropWhile_subset _ this
        simp [h d (List.mem_cons_of_mem _ hdm)]
    simp only [rmWsBeforeSetAux, hcond, Bool.false_eq_true, if_false]
    exact congrArg (c :: ·) (ih (fun d hd => h d (List.mem_cons_of_mem _ hd)))

/-- `re.sub(r"\s+(P)", ...)` is the identity when whitespace never doubles
and never immediately precedes a `P`-character. -/
theorem rmWsBeforeSetAux_id (p : Char → Bool) :
    ∀ s : Str, noWsRun p s = true → rmWsBeforeSetAux p 0 s = s := by
  intro s
  induction s with
  | nil => intro _; rfl
  | cons c rest ih =>
    intro h
    simp only [noWsRun, Bool.and_eq_true] at h
    obtain ⟨hww, hwp⟩ := h
    have htail : noWsRun p rest = true := by
      simp only [noWsRun, Bool.and_eq_true]
      exact ⟨noAdjPair_tail hww, noAdjPair_tail hwp⟩
    have hcond : (isWsChar c &&
        (match (rest.dropWhile isWsChar).head? with
         | some d => p d
         | none => false)) = false := by
      by_cases hc : isWsChar c = true
      · cases rest with
        | nil => simp
        | cons d r2 =>
          have hdw : isWsChar d = false := by
            have := noAdjPair_head hww
            simp [hc] at this
            exact this
          have hpd : p d = false := by
            have := noAdjPair_head hwp
            simp [hc] at this
            exact this
          rw [List.dropWhile_cons_of_neg (by simp [hdw])]
          simp [hpd]
      · simp [hc]
    simp only [rmWsBeforeSetAux, hcond, Bool.false_eq_true, if_false]
    exact congrArg (c :: ·) (ih htail)

/-- In non-whitespace-starting state, `collapseWsAux` ignores the flag. -/
theorem collapseWsAux_true_eq_false (s : Str)
    (h : ∀ c, s.head? = some c → isWsChar c = false) :
    collapseWsAux true s = collapseWsAux false s := by
  cases s with
  | nil => rfl
  | cons c rest =>
    have hc := h c rfl
    simp [collapseWsAux, hc]

/-- `re.sub(r"\s+", " ")` is the identity when whitespace never doubles
and every whitespace character is already a single space. -/
theorem collapseWsAux_id :
    ∀ s : Str, noAdjPair (fun c d => isWsChar c && isWsChar d) s = true →
    (∀ c ∈ s, isWsChar c = true → c = ' ') →
    collapseWsAux false s = s := by
  intro s
  induction s with
  | nil => intro _ _; rfl
  | cons c rest ih =>
    intro hww hsp
    by_cases hc : isWsChar c = true
    · have hcsp : c = ' ' := hsp c (List.mem_cons_self c rest) hc
      have hrest : ∀ d, rest.head? = some d → isWsChar d = false := by
        intro d hd
        cases rest with
        | nil => exact absurd hd (by simp)
        | cons e r2 =>
          have hq := noAdjPair_head hww
          simp [hc] at hq
          have hde : e = d := by simpa using hd
          rw [← hde]
          exact hq
      rw [show collapseWsAux false (c :: rest) = ' ' :: collapseWsAux true rest from by
        simp [collapseWsAux, hc]]
      rw [collapseWsAux_true_eq_false rest hrest,
        ih (noAdjPair_tail hww) (fun d hd hdw => hsp d (List.mem_cons_of_mem _ hd) hdw),
        hcsp]
    · simp only [collapseWsAux, hc, Bool.false_eq_true, if_false]
      exact congrArg (c :: ·)
        (ih (noAdjPair_tail hww) (fun d hd hdw => hsp d (List.mem_cons_of_mem _ hd) hdw))

/-- `re.sub(r",\s*,+", ",")` is the identity on comma-free text. -/
theorem collapseCommaAux_id : ∀ s : Str, (',' ∉ s) → collapseCommaAux 0 s = s := by
  intro s
  induction s with
  | nil => intro _; rfl
  | cons c rest ih =>
    intro h
    have hc : ¬ (c = ',') := fun he => h (he ▸ List.mem_cons_self c rest)
    simp only [collapseCommaAux, if_neg hc]
    exact congrArg (c :: ·) (ih (fun hm => h (List.mem_cons_of_mem _ hm)))

/-- A transition unit needs a comma right after its word. -/
theorem matchTransUnit_none_no_comma (prev : Option Char) (s : Str) (h : ',' ∉ s) :
    matchTransUnit prev s = none := by
  unfold matchTransUnit
  by_cases hp : isWordOpt prev = true
  · simp [hp]
  · simp only [hp, Bool.false_eq_true, if_false]
    cases hf : academic_transitions.find? (fun t => ciStartsWith t s) with
    | none => rfl
    | some t =>
      cases hd : s.drop t.length with
      | nil => simp [hd]
      | cons c rest2 =>
        have hcm : c ∈ s := List.drop_subset _ _ (hd ▸ List.mem_cons_self c rest2)
        have hc : ¬ (c = ',') := fun he => h (he ▸ hcm)
        simp [hd, hc]

/-- The duplicated-transition collapse is the identity on comma-free
text. -/
theorem collapseTransAux_id_no_comma :
    ∀ (s : Str) (prev : Option Char), (',' ∉ s) → collapseTransAux [] 0 prev s = s := by
  intro s
  induction s with
  | nil => intro prev _; rfl
  | cons c rest ih =>
    intro prev h
    simp only [collapseTransAux, matchTransUnit_none_no_comma prev (c :: rest) h,
      flushTransPending, List.length_nil, List.flatten_nil, List.nil_append]
    simp only [show ¬ (2 ≤ 0) from by omega, if_false, List.flatten_nil, List.nil_append]
    exact congrArg (c :: ·) (ih (some c) (fun hm => h (List.mem_cons_of_mem _ hm)))

/-- `strip` is the identity when the ends are not whitespace. -/
theorem stripWs_id (s : Str)
    (h1 : ∀ c, s.head? = some c → isWsChar c = false)
    (h2 : ∀ c, s.getLast? = some c → isWsChar c = false) : stripWs s = s := by
  unfold stripWs
  have hd : s.dropWhile isWsChar = s := by
    cases s with
    | nil => rfl
    | cons c rest => exact List.dropWhile_cons_of_neg (by simp [h1 c rfl])
  rw [hd]
  have hd2 : s.reverse.dropWhile isWsChar = s.reverse := by
    cases hr : s.reverse with
    | nil => rfl
    | cons c rest =>
      have hlast : s.getLast? = some c := by
        rw [← List.head?_reverse, hr]
        rfl
      have hwc : isWsChar c = false := h2 c hlast
      exact List.dropWhile_cons_of_neg (by simp [hwc])
  rw [hd2, List.reverse_reverse]

/-- The all-zero random stream starting at position `k`. -/
def rngZ (k : Nat) : RNG := ⟨fun _ => 0, fun _ => 0, k⟩

theorem rngZ_next (k : Nat) : (rngZ k).next = (0, rngZ (k + 1)) := rfl

theorem rngZ_valid (k : Nat) : (rngZ k).Valid := fun _ => ⟨le_refl 0, show (0:ℚ) < 1 by norm_num⟩

/-- Configuration with `p_passive = 1`, `p_synonym = 1`,
`p_transition = 0`. -/
def cfg10 : HumCfg := ⟨1, 1, 0⟩

/-- The word block `"aa "`. -/
def unitAA : Str := ['a', 'a', ' ']

/-- A single long sentence of `m + 1` two-letter words:
`"aa aa … aa"`, of length `3 m + 2`, with no sentence-final punctuation
and no apostrophes. -/
def bigBody (m : Nat) : Str := (List.replicate m unitAA).flatten ++ ['a', 'a']

theorem bigBody_succ (m : Nat) : bigBody (m+1) = 'a' :: 'a' :: ' ' :: bigBody m := by
  unfold bigBody
  rw [List.replicate_succ, List.flatten_cons, List.append_assoc]
  rfl

theorem bigBody_head (m : Nat) : ∃ tl, bigBody m = 'a' :: tl := by
  cases m with
  | zero => exact ⟨['a'], rfl⟩
  | succ k => exact ⟨_, bigBody_succ k⟩

theorem bigBody_length (m : Nat) : (bigBody m).length = 3 * m + 2 := by
  induction m with
  | zero => rfl
  | succ k ih =>
    rw [bigBody_succ]
    simp only [List.length_cons, ih]
    omega

theorem bigBody_last (m : Nat) : (bigBody m).getLast? = some 'a' := by
  unfold bigBody
  rw [List.getLast?_append_of_ne_nil _ (by simp)]
  rfl

theorem bigBody_mem (m : Nat) : ∀ c ∈ bigBody m, c = 'a' ∨ c = ' ' := by
  induction m with
  | zero => decide
  | succ k ih =>
    intro c hc
    rw [bigBody_succ] at hc
    simp only [List.mem_cons] at hc
    rcases hc with h | h | h | h
    · exact Or.inl h
    · exact Or.inl h
    · exact Or.inr h
    · exact ih c h

theorem splitWs_bigBody : ∀ m, splitWs (bigBody m) = List.replicate (m+1) ['a', 'a'] := by
  intro m
  induction m with
  | zero => rfl
  | succ k ih =>
    rw [bigBody_succ]
    show splitWsAux ('a' :: 'a' :: ' ' :: bigBody k) [] = _
    simp only [splitWsAux, isWsChar]
    norm_num
    rw [show splitWsAux (bigBody k) [] = splitWs (bigBody k) from rfl, ih]
    rfl

/-- The regex sentence splitter never splits when no sentence-final
punctuation occurs. -/
theorem regexSentSplitAux_no_end :
    ∀ (s acc : Str) (prev : Option Char),
    (∀ c ∈ s, isSentEnd (some c) = false) → isSentEnd prev = false →
    regexSentSplitAux false acc prev s = [acc.reverse ++ s] := by
  intro s
  induction s with
  | nil => intro acc prev _ _; simp [regexSentSplitAux]
  | cons c rest ih =>
    intro acc prev h hp
    have hcond : (isWsChar c && isSentEnd prev) = false := by
      rw [hp, Bool.and_false]
    simp only [regexSentSplitAux, hcond, Bool.false_eq_true, if_false]
    rw [ih (c :: acc) (some c) (fun d hd => h d (List.mem_cons_of_mem _ hd))
      (h c (List.mem_cons_self c rest))]
    simp

theorem bigBody_no_sent_end (m : Nat) : ∀ c ∈ bigBody m, isSentEnd (some c) = false := by
  intro c hc
  rcases bigBody_mem m c hc with h | h <;> rw [h] <;> rfl

theorem bigBody_ne_nil (m : Nat) : bigBody m ≠ [] := by
  obtain ⟨tl, htl⟩ := bigBody_head m
  rw [htl]
  exact List.cons_ne_nil _ _

theorem stripWs_bigBody (m : Nat) : stripWs (bigBody m) = bigBody m := by
  apply stripWs_id
  · intro c hc
    obtain ⟨tl, htl⟩ := bigBody_head m
    rw [htl] at hc
    have hca : c = 'a' := by
      have := hc
      simp at this
      exact this.symm
    rw [hca]
    rfl
  · intro c hc
    rw [bigBody_last m] at hc
    have hca : c = 'a' := by
      have := hc
      simp at this
      exact this.symm
    rw [hca]
    rfl

theorem split_sentences_bigBody (m : Nat) :
    split_sentences none env0 (bigBody m) = [bigBody m] := by
  have hsplit : regexSentSplit (bigBody m) = [bigBody m] := by
    unfold regexSentSplit
    rw [regexSentSplitAux_no_end (bigBody m) [] none (bigBody_no_sent_end m) rfl]
    rfl
  have hne : (bigBody m).isEmpty = false := by
    obtain ⟨tl, htl⟩ := bigBody_head m
    rw [htl]
    rfl
  unfold split_sentences
  rw [show env0.sentTokenize (bigBody m) = Except.error () from rfl]
  simp only [hsplit, List.map_cons, List.map_nil, stripWs_bigBody, List.filter,
    Bool.not_eq_true']
  simp [hne]

/-- Decidable facts about the appended passive-fallback clause. -/
theorem evidenceClause_facts :
    (',' ∉ evidenceClause) ∧ (∀ c ∈ evidenceClause, isWsChar c = true → c = ' ') ∧
    evidenceClause.getLast? = some '.' ∧ evidenceClause ≠ [] := by decide

/-- Adjacent-pair facts for the long sentence with the clause appended:
no doubled whitespace and no whitespace before a period. -/
theorem bigTail_pairs : ∀ m,
    noAdjPair (fun c d => isWsChar c && isWsChar d) (bigBody m ++ evidenceClause) = true ∧
    noAdjPair (fun c d => isWsChar c && (d = '.')) (bigBody m ++ evidenceClause) = true := by
  intro m
  induction m with
  | zero => exact ⟨by decide, by decide⟩
  | succ k ih =>
    obtain ⟨h1, h2⟩ := ih
    obtain ⟨tl, htl⟩ := bigBody_head k
    have hbk : bigBody k ++ evidenceClause = 'a' :: (tl ++ evidenceClause) := by
      rw [htl]
      rfl
    constructor
    · rw [bigBody_succ, List.cons_append, List.cons_append, List.cons_append, hbk]
      simp only [noAdjPair]
      rw [← hbk, h1]
      decide
    · rw [bigBody_succ, List.cons_append, List.cons_append, List.cons_append, hbk]
      simp only [noAdjPair]
      rw [← hbk, h2]
      decide

theorem bigTail_comma (m : Nat) : ',' ∉ bigBody m ++ evidenceClause := by
  intro h
  rcases List.mem_append.1 h with h2 | h2
  · rcases bigBody_mem m ',' h2 with h3 | h3 <;> exact absurd h3 (by decide)
  · exact evidenceClause_facts.1 h2

theorem bigTail_ws_space (m : Nat) :
    ∀ c ∈ bigBody m ++ evidenceClause, isWsChar c = true → c = ' ' := by
  intro c hc hw
  rcases List.mem_append.1 hc with h2 | h2
  · rcases bigBody_mem m c h2 with h3 | h3
    · rw [h3] at hw
      exact absurd hw (by decide)
    · exact h3
  · exact evidenceClause_facts.2.1 c h2 hw

theorem bigTail_last (m : Nat) : (bigBody m ++ evidenceClause).getLast? = some '.' := by
  rw [List.getLast?_append_of_ne_nil _ evidenceClause_facts.2.2.2]
  exact evidenceClause_facts.2.2.1

/-- `_final_clean_sentence` on the long sentence with the clause
appended only uppercases the first character. -/
theorem final_clean_bigTail (m : Nat) :
    final_clean_sentence (bigBody m ++ evidenceClause)
      = 'A' :: ((bigBody m).tail ++ evidenceClause) := by
  obtain ⟨tl, htl⟩ := bigBody_head m
  have hbk : bigBody m ++ evidenceClause = 'a' :: (tl ++ evidenceClause) := by
    rw [htl]
    rfl
  have hpairs := bigTail_pairs m
  have hcol : collapseWs (bigBody m ++ evidenceClause) = bigBody m ++ evidenceClause :=
    collapseWsAux_id _ hpairs.1 (bigTail_ws_space m)
  have hstrip : stripWs (bigBody m ++ evidenceClause) = bigBody m ++ evidenceClause := by
    apply stripWs_id
    · intro c hc
      rw [hbk] at hc
      have hca : c = 'a' := by
        have := hc
        simp at this
        exact this.symm
      rw [hca]
      rfl
    · intro c hc
      rw [bigTail_last m] at hc
      have hca : c = '.' := by
        have := hc
        simp at this
        exact this.symm
      rw [hca]
      rfl
  have hcomma : rmWsBeforeSetAux (fun c => c = ',') 0 (bigBody m ++ evidenceClause)
      = bigBody m ++ evidenceClause := by
    apply rmWsBeforeSetAux_id_no_target
    intro c hc
    have hne : ¬ (c = ',') := fun he => bigTail_comma m (he ▸ hc)
    simp [hne]
  have hdot : rmWsBeforeSetAux (fun c => c = '.') 0 (bigBody m ++ evidenceClause)
      = bigBody m ++ evidenceClause := by
    apply rmWsBeforeSetAux_id
    simp only [noWsRun, Bool.and_eq_true]
    exact ⟨hpairs.1, hpairs.2⟩
  unfold final_clean_sentence
  simp only [rmWsBeforeChar, rmWsBeforeSet]
  rw [hcol, hstrip, hcomma, hdot, hbk]
  rw [htl]
  rfl

/-- The output of the pipeline on `bigBody m`: first letter uppercased,
passive-fallback clause appended. -/
def bigOut (m : Nat) : Str := 'A' :: ((bigBody m).tail ++ evidenceClause)

theorem process_sentence_bigBody (m idx k : Nat) (hm : 3 ≤ m) :
    process_sentence none env0 cfg10 true false idx (bigBody m) (rngZ k)
      = (some (bigOut m), rngZ (k + 3)) := by
  have hexp : expand_contractions (bigBody m) = bigBody m := by
    apply expand_contractions_id_of_no_apos
    intro h
    rcases bigBody_mem m apos h with h2 | h2 <;> exact absurd h2 (by decide)
  have hgate : ¬ ((rngZ k).vals (rngZ k).k < cfg10.p_transition ∧ idx % 3 = 0 ∧
      starts_with_transition (bigBody m) = false) := by
    intro hc
    exact absurd hc.1 (lt_irrefl 0)
  have hwords : ¬ (bigBody m = [] ∨ (splitWs (bigBody m)).length < 4) := by
    push_neg
    refine ⟨bigBody_ne_nil m, ?_⟩
    rw [splitWs_bigBody m, List.length_replicate]
    omega
  have hpass : safe_passive_transform none env0 (bigBody m) (rngZ (k + 2))
      = (bigBody m ++ evidenceClause, rngZ (k + 3)) := by
    unfold safe_passive_transform
    rw [if_neg hwords]
    simp only [rngZ_next]
    rw [if_pos (show (0:ℚ) < mkRat 1 2 by decide)]
  unfold process_sentence
  rw [stripWs_bigBody m, if_neg (bigBody_ne_nil m)]
  unfold process_sentence_core
  rw [hexp]
  unfold process_sentence_rest
  rw [transition_step_gate_closed _ idx (bigBody m) (rngZ k) hgate]
  rw [show (⟨(rngZ k).vals, (rngZ k).picks, (rngZ k).k + 1⟩ : RNG) = rngZ (k + 1) from rfl]
  simp only [rngZ_next]
  rw [if_pos (show (0:ℚ) < cfg10.p_passive by decide)]
  rw [show k + 1 + 1 = k + 2 from rfl, hpass]
  simp only [Bool.false_eq_true, if_false, if_true]
  rw [final_clean_bigTail m]
  rfl

theorem joinSpace_single (x : Str) : joinSpace [x] = x := by
  simp [joinSpace, List.intercalate]

/-- Facts about `bigOut m` needed for the final-cleanup identities. -/
theorem bigOut_facts (m : Nat) :
    noAdjPair (fun c d => isWsChar c && isWsChar d) (bigOut m) = true ∧
    noAdjPair (fun c d => isWsChar c && (d = '.')) (bigOut m) = true ∧
    (',' ∉ bigOut m) ∧ (∀ c ∈ bigOut m, isWsChar c = true → c = ' ') ∧
    (bigOut m).getLast? = some '.' := by
  obtain ⟨tl, htl⟩ := bigBody_head m
  have htail : (bigBody m).tail = tl := by rw [htl]; rfl
  have hbk : bigBody m ++ evidenceClause = 'a' :: (tl ++ evidenceClause) := by
    rw [htl]
    rfl
  have hout : bigOut m = 'A' :: (tl ++ evidenceClause) := by
    unfold bigOut
    rw [htail]
  have hpairs := bigTail_pairs m
  have h1 : noAdjPair (fun c d => isWsChar c && isWsChar d) (bigOut m) = true := by
    rw [hout, noAdjPair_congr_head (fun c d => isWsChar c && isWsChar d) 'A' 'a'
      (tl ++ evidenceClause) (fun d => rfl), ← hbk]
    exact hpairs.1
  have h2 : noAdjPair (fun c d => isWsChar c && (d = '.')) (bigOut m) = true := by
    rw [hout, noAdjPair_congr_head (fun c d => isWsChar c && (d = '.')) 'A' 'a'
      (tl ++ evidenceClause) (fun d => rfl), ← hbk]
    exact hpairs.2
  have hmem : ∀ c ∈ bigOut m, c = 'A' ∨ c ∈ bigBody m ++ evidenceClause := by
    intro c hc
    rw [hout] at hc
    rcases List.mem_cons.1 hc with h | h
    · exact Or.inl h
    · exact Or.inr (hbk ▸ List.mem_cons_of_mem _ h)
  have h3 : ',' ∉ bigOut m := by
    intro h
    rcases hmem ',' h with h2 | h2
    · exact absurd h2 (by decide)
    · exact bigTail_comma m h2
  have h4 : ∀ c ∈ bigOut m, isWsChar c = true → c = ' ' := by
    intro c hc hw
    rcases hmem c hc with h2 | h2
    · rw [h2] at hw
      exact absurd hw (by decide)
    · exact bigTail_ws_space m c h2 hw
  have hclne : tl ++ evidenceClause ≠ [] := by
    intro h
    rcases List.append_eq_nil.1 h with ⟨_, h2⟩
    exact evidenceClause_facts.2.2.2 h2
  have h5 : (bigOut m).getLast? = some '.' := by
    have hc : (tl ++ evidenceClause).getLast? = some '.' := by
      have := bigTail_last m
      rw [hbk] at this
      rw [show ('a' :: (tl ++ evidenceClause)) = ['a'] ++ (tl ++ evidenceClause) from rfl,
        List.getLast?_append_of_ne_nil _ hclne] at this
      exact this
    rw [hout, show ('A' :: (tl ++ evidenceClause)) = ['A'] ++ (tl ++ evidenceClause) from rfl,
      List.getLast?_append_of_ne_nil _ hclne]
    exact hc
  exact ⟨h1, h2, h3, h4, h5⟩

/-- `_post_process_text` leaves `bigOut m` unchanged. -/
theorem post_process_bigOut (m : Nat) : post_process_text (bigOut m) = bigOut m := by
  obtain ⟨h1, h2, h3, h4, h5⟩ := bigOut_facts m
  have hcomma : rmWsBeforeSetAux (fun c => c = ',') 0 (bigOut m) = bigOut m := by
    apply rmWsBeforeSetAux_id_no_target
    intro c hc
    have hne : ¬ (c = ',') := fun he => h3 (he ▸ hc)
    simp [hne]
  have hcr : collapseCommaAux 0 (bigOut m) = bigOut m := collapseCommaAux_id _ h3
  have hdot : rmWsBeforeSetAux (fun c => c = '.') 0 (bigOut m) = bigOut m := by
    apply rmWsBeforeSetAux_id
    simp only [noWsRun, Bool.and_eq_true]
    exact ⟨h1, h2⟩
  have hcw : collapseWsAux false (bigOut m) = bigOut m := collapseWsAux_id _ h1 h4
  have htr : collapseTransAux [] 0 none (bigOut m) = bigOut m :=
    collapseTransAux_id_no_comma _ none h3
  have hst : stripWs (bigOut m) = bigOut m := by
    apply stripWs_id
    · intro c hc
      have hca : c = 'A' := by
        have := hc
        simp [bigOut] at this
        exact this.symm
      rw [hca]
      rfl
    · intro c hc
      rw [h5] at hc
      have hca : c = '.' := by
        have := hc
        simp at this
        exact this.symm
      rw [hca]
      rfl
  unfold post_process_text
  simp only [rmWsBeforeChar, rmWsBeforeSet, collapseCommaRuns, collapseWs,
    collapseTransitionRuns]
  rw [hcomma, hcr, hdot, hcw, htr, hst]

/-- Full pipeline run on the long one-sentence input with `p_passive = 1`,
`p_transition = 0`, synonyms disabled, no spaCy: the output is the input
with its first letter uppercased and the passive-fallback clause
appended, returned in full. -/
theorem humanize_bigBody (m : Nat) (hm : 3 ≤ m) (hlen : 3 * m + 2 ≤ 20000) :
    humanize_text none env0 cfg10 (rngZ 0) (bigBody m) true false = bigOut m := by
  have hloop : process_loop none env0 cfg10 true false 0 [bigBody m] (rngZ 0)
      = ([bigOut m], rngZ 3) := by
    unfold process_loop
    rw [process_sentence_bigBody m 0 0 hm]
    rfl
  unfold humanize_text humanize_textR
  rw [stripWs_bigBody m]
  rw [if_neg (bigBody_ne_nil m)]
  rw [if_neg (show ¬ (20000 < (bigBody m).length) by rw [bigBody_length]; omega)]
  rw [split_sentences_bigBody m]
  rw [if_neg (show ¬ (([bigBody m] : List Str) = []) by simp)]
  rw [hloop]
  simp only []
  rw [joinSpace_single]
  exact post_process_bigOut m

theorem bigOut_length (m : Nat) : (bigOut m).length = 3 * m + 49 := by
  unfold bigOut
  rw [List.length_cons, List.length_append, List.length_tail, bigBody_length,
    show evidenceClause.length = 47 from rfl]
  omega

/-- C10 counterexample: a valid 20,000-character input (exactly the input
limit) whose assembled output has 20,047 characters — strictly above
every output bound in the spec's observed 10,000–20,000 range — is
returned in full: the output is exactly the cleaned input with the
passive-fallback clause appended, with no truncation and no truncation
marker. -/
theorem c10_output_exceeds_bound_untruncated :
    (stripWs (bigBody 6666)).length = 20000 ∧
    20000 < (humanize_text none env0 cfg10 (rngZ 0) (bigBody 6666) true false).length ∧
    humanize_text none env0 cfg10 (rngZ 0) (bigBody 6666) true false
      = 'A' :: ((bigBody 6666).tail ++ evidenceClause) := by
  have h := humanize_bigBody 6666 (by omega) (by omega)
  refine ⟨?_, ?_, h⟩
  · rw [stripWs_bigBody, bigBody_length]
  · rw [h, bigOut_length]
    omega

/-- C10 (amended): `humanize_text` enforces no output-length bound at
all — the assembled, post-processed text is returned whole even when it
exceeds 20,000 characters; the only text beyond the input is the
pipeline's own appended clause, not a truncation marker. -/
theorem c10_no_output_bound_enforced :
    ∃ body : Str,
      humanize_text none env0 cfg10 (rngZ 0) (bigBody 6666) true false
        = body ++ evidenceClause ∧
      20000 < (body ++ evidenceClause).length := by
  refine ⟨'A' :: (bigBody 6666).tail, ?_, ?_⟩
  · rw [humanize_bigBody 6666 (by omega) (by omega)]
    rfl
  · rw [show ('A' :: (bigBody 6666).tail) ++ evidenceClause = bigOut 6666 from rfl,
      bigOut_length]
    omega

theorem stripWs_replicate_char (n : Nat) (c : Char) (h : isWsChar c = false) :
    stripWs (List.replicate n c) = List.replicate n c := by
  apply stripWs_id
  · intro d hd
    cases n with
    | zero => exact absurd hd (by simp)
    | succ k =>
      rw [List.replicate_succ] at hd
      have : c = d := by simpa using hd
      rw [← this]
      exact h
  · intro d hd
    rw [← List.head?_reverse, List.reverse_replicate] at hd
    cases n with
    | zero => exact absurd hd (by simp)
    | succ k =>
      rw [List.replicate_succ] at hd
      have : c = d := by simpa using hd
      rw [← this]
      exact h

/-- C5 counterexample: an input of 20,001 characters is rejected, but the
rejection message names only the configured limit — the decimal
representation of the actual input length, 20001, does not occur in it. -/
theorem c5_reject_message_lacks_actual_length :
    humanize_text none env0 cfg10 (rngZ 0) (List.replicate 20001 'a') false false
      = inputTooLongMsg ∧
    containsSub ("20001".data) inputTooLongMsg = false ∧
    containsSub ("20,000".data) inputTooLongMsg = true := by
  refine ⟨?_, by decide, by decide⟩
  unfold humanize_text humanize_textR
  rw [stripWs_replicate_char 20001 'a' (by decide)]
  rw [if_neg (show ¬ (List.replicate 20001 'a' = ([] : Str)) from by
    show ¬ (List.replicate (20000 + 1) 'a' = ([] : Str))
    rw [List.replicate_succ]
    exact List.cons_ne_nil _ _)]
  rw [if_pos (show 20000 < (List.replicate 20001 'a').length from by
    rw [List.length_replicate]
    omega)]

/-- C5 (amended): `humanize_text` rejects every input whose stripped
length strictly exceeds 20,000 characters with a fixed message that names
the configured limit but not the actual input length, and accepts inputs
whose stripped length is exactly 20,000 (the 20,000-character input
`bigBody 6666` is transformed, not rejected). -/
theorem c5_limit_enforced_message_fixed :
    (∀ (nlp : Option SpacyModel) (env : Env) (cfg : HumCfg) (rng : RNG) (text : Str)
      (aP aS : Bool), 20000 < (stripWs text).length →
      humanize_text nlp env cfg rng text aP aS = inputTooLongMsg) ∧
    containsSub ("20,000".data) inputTooLongMsg = true ∧
    (stripWs (bigBody 6666)).length = 20000 ∧
    humanize_text none env0 cfg10 (rngZ 0) (bigBody 6666) true false ≠ inputTooLongMsg := by
  refine ⟨?_, by decide, ?_, ?_⟩
  · intro nlp env cfg rng text aP aS hlen
    have hne : stripWs text ≠ [] := by
      intro he
      rw [he] at hlen
      simp at hlen
    unfold humanize_text humanize_textR
    rw [if_neg hne, if_pos hlen]
  · rw [stripWs_bigBody, bigBody_length]
  · rw [humanize_bigBody 6666 (by omega) (by omega)]
    intro h
    have hh := congrArg List.head? h
    rw [show (bigOut 6666).head? = some 'A' from rfl,
      show inputTooLongMsg.head? = some 'E' from rfl] at hh
    exact absurd hh (by decide)

theorem c5_limit_enforced_witness :
    humanize_text none env0 cfg10 (rngZ 0) (List.replicate 20001 'a') false false
      = inputTooLongMsg :=
  c5_limit_enforced_message_fixed.1 none env0 cfg10 (rngZ 0)
    (List.replicate 20001 'a') false false
    (by rw [stripWs_replicate_char 20001 'a' (by decide), List.length_replicate]; omega)
